import Mathlib

/-!
A shallow embedding of the `rosc` OSC codec (src/src/encoder.rs,
src/src/decoder.rs, src/src/types.rs).

Bytes are modelled as `Nat` (with explicit `% 256` / `% 2^32` where the Rust code
relies on fixed-width arithmetic), buffers as `List Nat`, Rust `String`s as their
UTF-8 byte sequences (`List Nat`; the Rust type invariant "the bytes are valid
UTF-8" becomes an explicit hypothesis where it matters), `f32`/`f64` as their
big-endian bit patterns (the codec only ever moves the bit patterns; equality of
floats is modelled as equality of bit patterns), `i32`/`i64` as integers in the
corresponding range, and `char` as a Unicode scalar value code point.

The decoder (`decoder.rs`) threads a reference to the original top-level input
through every call in order to compute 4-byte alignment relative to the start of
that buffer (`nom::Offset`).  We model a parser state as the pair of the bytes
remaining in the current window (`List Nat`) and the absolute offset of those
bytes from the start of the original buffer (`Nat`); `original_input.offset(input)`
is then exactly that offset.  All nom parsers used by the crate are the
`complete` variants, which fail with `Err::Error(ErrorKind::Eof)` (never
`Err::Incomplete`) on short input, so every `Err::Incomplete` match arm in the
source is dead and the error monad is modelled as `Except OscError`.
-/

namespace Rosc

/-- Error kinds produced by the nom `complete` combinators (`nom::error::ErrorKind`).
Only `Eof` (from `take`/`be_*` on short input) is reachable in this codec. -/
inductive ErrorKind where
  | Eof
  deriving DecidableEq, Repr

/-- `OscError` from src/src/errors.rs (the variants reachable from the codec).
`StringError` carries a `FromUtf8Error` in Rust; its payload is irrelevant here. -/
inductive OscError where
  | StringError
  | ReadError (kind : ErrorKind)
  | BadPacket (msg : String)
  | BadMessage (msg : String)
  | BadArg (msg : String)
  | BadBundle (msg : String)
  deriving DecidableEq, Repr

/-- `OscTime` from src/src/types.rs: two `u32` fields, no further invariant. -/
structure OscTime where
  seconds : Nat
  fractional : Nat
  deriving DecidableEq, Repr

/-- `OscColor` from src/src/types.rs: four `u8` fields. -/
structure OscColor where
  red : Nat
  green : Nat
  blue : Nat
  alpha : Nat
  deriving DecidableEq, Repr

/-- `OscMidiMessage` from src/src/types.rs: four `u8` fields. -/
structure OscMidiMessage where
  port : Nat
  status : Nat
  data1 : Nat
  data2 : Nat
  deriving DecidableEq, Repr

/-- `OscType` from src/src/types.rs.  `Float`/`Double` carry the IEEE-754 bit
pattern, `String` the UTF-8 bytes, `Char` the Unicode scalar value, and the
`OscArray` wrapper struct is inlined into the `Array` constructor (it is a
single-field struct `{ content: Vec<OscType> }`). -/
inductive OscType where
  | Int (x : Int)
  | Float (bits : Nat)
  | String (s : List Nat)
  | Blob (b : List Nat)
  | Time (t : OscTime)
  | Long (x : Int)
  | Double (bits : Nat)
  | Char (c : Nat)
  | Color (c : OscColor)
  | Midi (m : OscMidiMessage)
  | Bool (b : Bool)
  | Array (content : List OscType)
  | Nil
  | Inf
  deriving Repr

/-- `OscMessage` from src/src/types.rs. -/
structure OscMessage where
  addr : List Nat
  args : List OscType
  deriving Repr

/-- `OscPacket` from src/src/types.rs; the `OscBundle` struct
`{ timetag, content }` is inlined into the `Bundle` constructor because it is
mutually recursive with `OscPacket`. -/
inductive OscPacket where
  | Message (msg : OscMessage)
  | Bundle (timetag : OscTime) (content : List OscPacket)
  deriving Repr

/-! ## Fixed-width big-endian encodings

`u32::to_be_bytes` / `u64::to_be_bytes` and the corresponding nom readers
`be_u32`, `be_i32`, `be_i64`, `be_f32`, `be_f64`. -/

/-- Big-endian bytes of `n` as a `u32` (`(n as u32).to_be_bytes()`): the `as u32`
truncation is implicit because each byte is reduced `% 256`. -/
def u32be (n : Nat) : List Nat :=
  [n / 2 ^ 24 % 256, n / 2 ^ 16 % 256, n / 2 ^ 8 % 256, n % 256]

/-- Big-endian bytes of `n` as a `u64` (`(n as u64).to_be_bytes()`). -/
def u64be (n : Nat) : List Nat :=
  [n / 2 ^ 56 % 256, n / 2 ^ 48 % 256, n / 2 ^ 40 % 256, n / 2 ^ 32 % 256,
   n / 2 ^ 24 % 256, n / 2 ^ 16 % 256, n / 2 ^ 8 % 256, n % 256]

/-- Two's-complement `u32` image of an `i32` (`x.to_be_bytes()` for `i32` equals
`(x as u32).to_be_bytes()`). -/
def u32ofI32 (x : Int) : Nat := (x % 2 ^ 32).toNat

/-- Two's-complement `u64` image of an `i64`. -/
def u64ofI64 (x : Int) : Nat := (x % 2 ^ 64).toNat

@[simp] theorem u32be_length (n : Nat) : (u32be n).length = 4 := rfl

@[simp] theorem u64be_length (n : Nat) : (u64be n).length = 8 := rfl

/-- Recomposing the four big-endian bytes of a `u32` yields the value back. -/
theorem u32be_recompose {n : Nat} (h : n < 2 ^ 32) :
    ((n / 2 ^ 24 % 256 * 256 + n / 2 ^ 16 % 256) * 256 + n / 2 ^ 8 % 256) * 256 + n % 256
      = n := by
  omega

/-- Recomposing the eight big-endian bytes of a `u64` yields the value back. -/
theorem u64be_recompose {n : Nat} (h : n < 2 ^ 64) :
    ((((((n / 2 ^ 56 % 256 * 256 + n / 2 ^ 48 % 256) * 256 + n / 2 ^ 40 % 256) * 256
      + n / 2 ^ 32 % 256) * 256 + n / 2 ^ 24 % 256) * 256 + n / 2 ^ 16 % 256) * 256
      + n / 2 ^ 8 % 256) * 256 + n % 256 = n := by
  omega

/-! ## `pad` (src/src/encoder.rs:209) -/

/-- `pad`: the position rounded up to the next multiple of 4. -/
def pad (pos : Nat) : Nat :=
  match pos % 4 with
  | 0 => pos
  | d => pos + (4 - d)

theorem pad_eq (pos : Nat) : pad pos = if pos % 4 = 0 then pos else pos + (4 - pos % 4) := by
  unfold pad
  rcases h : pos % 4 with _ | d <;> simp [h]

theorem pad_mod_four (pos : Nat) : pad pos % 4 = 0 := by
  rw [pad_eq]; split <;> omega

theorem le_pad (pos : Nat) : pos ≤ pad pos := by
  rw [pad_eq]; split <;> omega

theorem pad_lt (pos : Nat) : pad pos < pos + 4 := by
  rw [pad_eq]; split <;> omega

/-- The number of NUL bytes `encode_message`/`encode_string_into` append after
a chunk of `w` bytes: rounding `w + 1` up to a multiple of four always adds
`4 - w % 4` bytes past `w` (between 1 and 4). -/
theorem pad_succ_sub (w : Nat) : pad (w + 1) - w = 4 - w % 4 := by
  rw [pad_eq]; split <;> omega

/-! ## UTF-8 (`String::from_utf8` and `str::chars`)

`read_osc_string` validates the bytes it read with `String::from_utf8` and
`read_osc_args` iterates over the `char`s of the type-tag string.  We model
validity by `utf8Valid` (the standard UTF-8 well-formedness table, including the
rejection of overlong encodings, surrogates and code points above `0x10FFFF`)
and the `chars()` iterator by `utf8Chars`, which decodes a valid byte sequence
into its scalar values. -/

/-- State of the UTF-8 validation automaton: either at a character boundary, or
expecting `n` further continuation bytes after one byte constrained to
`[lo, hi]` (the lead-byte-dependent restriction that rules out overlong forms,
surrogates and code points above `0x10FFFF`). -/
inductive Utf8State where
  | start
  | expect (n : Nat) (lo hi : Nat)

/-- One step per byte of the standard UTF-8 validation table. -/
def utf8ValidAux : Utf8State → List Nat → Bool
  | .start, [] => true
  | .expect _ _ _, [] => false
  | .start, b :: rest =>
    if b ≤ 0x7F then utf8ValidAux .start rest
    else if 0xC2 ≤ b && b ≤ 0xDF then utf8ValidAux (.expect 0 0x80 0xBF) rest
    else if b = 0xE0 then utf8ValidAux (.expect 1 0xA0 0xBF) rest
    else if b = 0xED then utf8ValidAux (.expect 1 0x80 0x9F) rest
    else if 0xE1 ≤ b && b ≤ 0xEF then utf8ValidAux (.expect 1 0x80 0xBF) rest
    else if b = 0xF0 then utf8ValidAux (.expect 2 0x90 0xBF) rest
    else if 0xF1 ≤ b && b ≤ 0xF3 then utf8ValidAux (.expect 2 0x80 0xBF) rest
    else if b = 0xF4 then utf8ValidAux (.expect 2 0x80 0x8F) rest
    else false
  | .expect n lo hi, b :: rest =>
    if lo ≤ b && b ≤ hi then
      match n with
      | 0 => utf8ValidAux .start rest
      | n + 1 => utf8ValidAux (.expect n 0x80 0xBF) rest
    else false

/-- UTF-8 validity of a byte sequence, as checked by `String::from_utf8`. -/
def utf8Valid (s : List Nat) : Bool := utf8ValidAux .start s

/-- Character accumulation: scalar value built so far and number of continuation
bytes still expected. -/
def utf8CharsAux : Option (Nat × Nat) → List Nat → List Nat
  | none, [] => []
  | some (acc, _), [] => [acc]
  | none, b :: rest =>
    if b ≤ 0x7F then b :: utf8CharsAux none rest
    else if 0xC0 ≤ b && b ≤ 0xDF then utf8CharsAux (some (b - 0xC0, 1)) rest
    else if 0xE0 ≤ b && b ≤ 0xEF then utf8CharsAux (some (b - 0xE0, 2)) rest
    else if 0xF0 ≤ b && b ≤ 0xF7 then utf8CharsAux (some (b - 0xF0, 3)) rest
    else b :: utf8CharsAux none rest
  | some (acc, k), b :: rest =>
    if k ≤ 1 then (acc * 64 + (b - 0x80)) :: utf8CharsAux none rest
    else utf8CharsAux (some (acc * 64 + (b - 0x80), k - 1)) rest

/-- The scalar values of a (valid) UTF-8 byte sequence, i.e. `str::chars()`.
(On invalid input, which is unreachable after `utf8Valid`, the result is a
best-effort decoding.) -/
def utf8Chars (s : List Nat) : List Nat := utf8CharsAux none s

/-- A list of ASCII bytes is valid UTF-8. -/
theorem utf8Valid_of_ascii {s : List Nat} (h : ∀ b ∈ s, b ≤ 0x7F) : utf8Valid s = true := by
  unfold utf8Valid
  induction s with
  | nil => rfl
  | cons b rest ih =>
    have hb : b ≤ 0x7F := h b (List.mem_cons_self b rest)
    simp only [utf8ValidAux, hb, ite_true]
    exact ih fun c hc => h c (List.mem_cons_of_mem _ hc)

/-- `chars()` of an ASCII string is the identity on its bytes. -/
theorem utf8Chars_of_ascii {s : List Nat} (h : ∀ b ∈ s, b ≤ 0x7F) : utf8Chars s = s := by
  unfold utf8Chars
  induction s with
  | nil => rfl
  | cons b rest ih =>
    have hb : b ≤ 0x7F := h b (List.mem_cons_self b rest)
    simp only [utf8CharsAux, hb, ite_true]
    rw [ih fun c hc => h c (List.mem_cons_of_mem _ hc)]

/-! ## Encoder (src/src/encoder.rs)

The encoder writes through the `Output` trait.  The claims are about `encode`,
which uses the `Output` impl for `Vec<u8>`: `write` appends, `mark` reserves
`size` zero bytes at the end and returns `(start, end)`, `place` overwrites
`out[start..end]`, and the associated error type is `core::convert::Infallible`,
so no write can fail.  We model that instance directly; the `?` operator on an
`Infallible` error becomes a `nomatch` on the uninhabited error value. -/

/-- `core::convert::Infallible`: uninhabited error type of the `Vec<u8>` output. -/
inductive Infallible

/-- `Output::write` for `Vec<u8>` (src/src/encoder.rs:285): append, returning the
number of bytes written. -/
def outWrite (out data : List Nat) : Except Infallible (List Nat × Nat) :=
  .ok (out ++ data, data.length)

/-- `Output::mark` for `Vec<u8>` (src/src/encoder.rs:270): extend with `size`
zeros and return the pair `(start, end)`. -/
def outMark (out : List Nat) (size : Nat) : Except Infallible (List Nat × (Nat × Nat)) :=
  .ok (out ++ List.replicate size 0, (out.length, out.length + size))

/-- `Output::place` for `Vec<u8>` (src/src/encoder.rs:279): overwrite
`out[start..end]` with `data` (call sites guarantee `data.length = end - start`
and `end ≤ out.length`). -/
def outPlace (out : List Nat) (startPos endPos : Nat) (data : List Nat) :
    Except Infallible (List Nat) :=
  .ok (out.take startPos ++ data ++ out.drop endPos)

/-- `encode_string` (src/src/encoder.rs:177): NUL-terminate and zero-pad to a
multiple of 4 (`resize` to `pad(len + 1)`). -/
def encode_string (s : List Nat) : List Nat :=
  s ++ List.replicate (pad (s.length + 1) - s.length) 0

/-- `encode_string_into` (src/src/encoder.rs:189). -/
def encode_string_into (s : List Nat) (out : List Nat) : Except Infallible (List Nat × Nat) :=
  let padded_len := pad (s.length + 1)
  let padding := padded_len - s.length
  match outWrite out s with
  | .error e => nomatch e
  | .ok (out, _) =>
    match outWrite out (List.replicate padding 0) with
    | .error e => nomatch e
    | .ok (out, _) => .ok (out, s.length + padding)

/-- `encode_time_tag_into` (src/src/encoder.rs:216). -/
def encode_time_tag_into (time : OscTime) (out : List Nat) :
    Except Infallible (List Nat × Nat) :=
  match outWrite out (u32be time.seconds) with
  | .error e => nomatch e
  | .ok (out, _) =>
    match outWrite out (u32be time.fractional) with
    | .error e => nomatch e
    | .ok (out, _) => .ok (out, 8)

mutual

/-- `encode_arg_type` (src/src/encoder.rs:146): the type-tag byte(s) of one
argument (tag characters as ASCII bytes). -/
def encode_arg_type : OscType → List Nat → Except Infallible (List Nat × Nat)
  | .Int _, out => outWrite out [0x69]
  | .Long _, out => outWrite out [0x68]
  | .Float _, out => outWrite out [0x66]
  | .Double _, out => outWrite out [0x64]
  | .Char _, out => outWrite out [0x63]
  | .String _, out => outWrite out [0x73]
  | .Blob _, out => outWrite out [0x62]
  | .Time _, out => outWrite out [0x74]
  | .Midi _, out => outWrite out [0x6D]
  | .Color _, out => outWrite out [0x72]
  | .Bool x, out => outWrite out (if x then [0x54] else [0x46])
  | .Nil, out => outWrite out [0x4E]
  | .Inf, out => outWrite out [0x49]
  | .Array content, out =>
    match outWrite out [0x5B] with
    | .error e => nomatch e
    | .ok (out, w1) =>
      match encode_arg_type_list content out with
      | .error e => nomatch e
      | .ok (out, w2) =>
        match outWrite out [0x5D] with
        | .error e => nomatch e
        | .ok (out, w3) => .ok (out, w1 + w2 + w3)

/-- The `for v in &x.content` loop of the `Array` case of `encode_arg_type`,
also used for the per-argument loop of `encode_message`. -/
def encode_arg_type_list : List OscType → List Nat → Except Infallible (List Nat × Nat)
  | [], out => .ok (out, 0)
  | a :: rest, out =>
    match encode_arg_type a out with
    | .error e => nomatch e
    | .ok (out, w) =>
      match encode_arg_type_list rest out with
      | .error e => nomatch e
      | .ok (out, ws) => .ok (out, w + ws)

end

mutual

/-- `encode_arg_data` (src/src/encoder.rs:109): the payload bytes of one
argument. -/
def encode_arg_data : OscType → List Nat → Except Infallible (List Nat × Nat)
  | .Int x, out => outWrite out (u32be (u32ofI32 x))
  | .Long x, out => outWrite out (u64be (u64ofI64 x))
  | .Float bits, out => outWrite out (u32be bits)
  | .Double bits, out => outWrite out (u64be bits)
  | .Char c, out => outWrite out (u32be c)
  | .String s, out => encode_string_into s out
  | .Blob x, out =>
    let padded_blob_length := pad x.length
    let padding := padded_blob_length - x.length
    match outWrite out (u32be x.length) with
    | .error e => nomatch e
    | .ok (out, _) =>
      match outWrite out x with
      | .error e => nomatch e
      | .ok (out, _) =>
        if 0 < padding then
          match outWrite out (List.replicate padding 0) with
          | .error e => nomatch e
          | .ok (out, _) => .ok (out, 4 + padded_blob_length)
        else .ok (out, 4 + padded_blob_length)
  | .Time t, out => encode_time_tag_into t out
  | .Midi x, out => outWrite out [x.port, x.status, x.data1, x.data2]
  | .Color x, out => outWrite out [x.red, x.green, x.blue, x.alpha]
  | .Bool _, out => .ok (out, 0)
  | .Nil, out => .ok (out, 0)
  | .Inf, out => .ok (out, 0)
  | .Array content, out => encode_arg_data_list content out

/-- The `for v in &x.content` loop of the `Array` case of `encode_arg_data`,
also used for the per-argument payload loop of `encode_message`. -/
def encode_arg_data_list : List OscType → List Nat → Except Infallible (List Nat × Nat)
  | [], out => .ok (out, 0)
  | a :: rest, out =>
    match encode_arg_data a out with
    | .error e => nomatch e
    | .ok (out, w) =>
      match encode_arg_data_list rest out with
      | .error e => nomatch e
      | .ok (out, ws) => .ok (out, w + ws)

end

/-- `encode_message` (src/src/encoder.rs:63): padded address string, `","`, the
tag bytes, 1–4 NUL bytes (`pad(written + 1) - written`), then the payloads. -/
def encode_message (msg : OscMessage) (out : List Nat) : Except Infallible (List Nat × Nat) :=
  match encode_string_into msg.addr out with
  | .error e => nomatch e
  | .ok (out, w0) =>
    match outWrite out [0x2C] with
    | .error e => nomatch e
    | .ok (out, w1) =>
      match encode_arg_type_list msg.args out with
      | .error e => nomatch e
      | .ok (out, w2) =>
        let written := w0 + w1 + w2
        let padding := pad (written + 1) - written
        match outWrite out (List.replicate padding 0) with
        | .error e => nomatch e
        | .ok (out, w3) =>
          match encode_arg_data_list msg.args out with
          | .error e => nomatch e
          | .ok (out, w4) => .ok (out, written + w3 + w4)

/-- The bytes of the literal `"#bundle"`. -/
def bundleTagBytes : List Nat := [0x23, 0x62, 0x75, 0x6E, 0x64, 0x6C, 0x65]

mutual

/-- `encode_into` (src/src/encoder.rs:56). -/
def encode_into (packet : OscPacket) (out : List Nat) : Except Infallible (List Nat × Nat) :=
  match packet with
  | .Message msg => encode_message msg out
  | .Bundle t cs => encode_bundle t cs out

/-- `encode_bundle` (src/src/encoder.rs:81): padded `"#bundle"`, the 8-byte
time tag, then the length-prefixed children (mark / encode / place). -/
def encode_bundle (timetag : OscTime) (content : List OscPacket) (out : List Nat) :
    Except Infallible (List Nat × Nat) :=
  match encode_string_into bundleTagBytes out with
  | .error e => nomatch e
  | .ok (out, w0) =>
    match encode_time_tag_into timetag out with
    | .error e => nomatch e
    | .ok (out, w1) =>
      match encode_bundle_elements content out with
      | .error e => nomatch e
      | .ok (out, w2) => .ok (out, w0 + w1 + w2)

/-- The `for packet in &bundle.content` loop of `encode_bundle`: both match arms
reserve a 4-byte mark, encode the child (the source matches on the child's
constructor inline, which is exactly the body of `encode_into`), and back-patch
the mark with the big-endian child length, accumulating `4 + length` per
child. -/
def encode_bundle_elements : List OscPacket → List Nat → Except Infallible (List Nat × Nat)
  | [], out => .ok (out, 0)
  | p :: rest, out =>
    match outMark out 4 with
    | .error e => nomatch e
    | .ok (out, startPos, endPos) =>
      match encode_into p out with
      | .error e => nomatch e
      | .ok (out, len) =>
        match outPlace out startPos endPos (u32be len) with
        | .error e => nomatch e
        | .ok out =>
          match encode_bundle_elements rest out with
          | .error e => nomatch e
          | .ok (out, ws) => .ok (out, (4 + len) + ws)

end

/-- `encode` (src/src/encoder.rs:21): encode into a fresh `Vec<u8>`; the
`.expect(..)` can never fire because the error type is `Infallible`, and the
bytes are returned wrapped in `Ok`. -/
def encode (packet : OscPacket) : Except OscError (List Nat) :=
  match encode_into packet [] with
  | .error e => nomatch e
  | .ok (bytes, _) => .ok bytes

/-! ### The bytes the encoder appends

For the `Vec<u8>` output every operation appends deterministically, so each
encoder function equals "append these bytes and return their count".  The
following pure functions give those bytes; the `*_eq` bridge lemmas prove the
correspondence with the monadic definitions above. -/

mutual

/-- The tag byte(s) `encode_arg_type` writes. -/
def argTypeBytes : OscType → List Nat
  | .Int _ => [0x69]
  | .Long _ => [0x68]
  | .Float _ => [0x66]
  | .Double _ => [0x64]
  | .Char _ => [0x63]
  | .String _ => [0x73]
  | .Blob _ => [0x62]
  | .Time _ => [0x74]
  | .Midi _ => [0x6D]
  | .Color _ => [0x72]
  | .Bool x => if x then [0x54] else [0x46]
  | .Nil => [0x4E]
  | .Inf => [0x49]
  | .Array content => 0x5B :: argTypeBytesList content ++ [0x5D]

/-- The tag bytes of an argument list. -/
def argTypeBytesList : List OscType → List Nat
  | [] => []
  | a :: rest => argTypeBytes a ++ argTypeBytesList rest

end

mutual

/-- The payload bytes `encode_arg_data` writes. -/
def argDataBytes : OscType → List Nat
  | .Int x => u32be (u32ofI32 x)
  | .Long x => u64be (u64ofI64 x)
  | .Float bits => u32be bits
  | .Double bits => u64be bits
  | .Char c => u32be c
  | .String s => encode_string s
  | .Blob x => u32be x.length ++ x ++ List.replicate (pad x.length - x.length) 0
  | .Time t => u32be t.seconds ++ u32be t.fractional
  | .Midi x => [x.port, x.status, x.data1, x.data2]
  | .Color x => [x.red, x.green, x.blue, x.alpha]
  | .Bool _ => []
  | .Nil => []
  | .Inf => []
  | .Array content => argDataBytesList content

/-- The payload bytes of an argument list. -/
def argDataBytesList : List OscType → List Nat
  | [] => []
  | a :: rest => argDataBytes a ++ argDataBytesList rest

end

/-- The bytes `encode_message` writes. -/
def messageBytes (msg : OscMessage) : List Nat :=
  let w := (encode_string msg.addr).length + 1 + (argTypeBytesList msg.args).length
  encode_string msg.addr ++ [0x2C] ++ argTypeBytesList msg.args
    ++ List.replicate (pad (w + 1) - w) 0 ++ argDataBytesList msg.args

mutual

/-- The bytes `encode_into` writes. -/
def packetBytes : OscPacket → List Nat
  | .Message m => messageBytes m
  | .Bundle t cs =>
    encode_string bundleTagBytes ++ u32be t.seconds ++ u32be t.fractional
      ++ bundleElemsBytes cs

/-- The bytes the child loop of `encode_bundle` writes: a 4-byte big-endian
length prefix before each child's bytes. -/
def bundleElemsBytes : List OscPacket → List Nat
  | [] => []
  | p :: rest => u32be (packetBytes p).length ++ packetBytes p ++ bundleElemsBytes rest

end

@[simp] theorem encode_string_length (s : List Nat) :
    (encode_string s).length = pad (s.length + 1) := by
  have h : s.length ≤ pad (s.length + 1) := le_trans (Nat.le_succ _) (le_pad _)
  simp [encode_string]
  omega

theorem encode_string_into_eq (s out : List Nat) :
    encode_string_into s out = .ok (out ++ encode_string s, (encode_string s).length) := by
  have h : s.length ≤ pad (s.length + 1) := le_trans (Nat.le_succ _) (le_pad _)
  simp [encode_string_into, outWrite, encode_string]

theorem encode_time_tag_into_eq (t : OscTime) (out : List Nat) :
    encode_time_tag_into t out
      = .ok (out ++ (u32be t.seconds ++ u32be t.fractional), 8) := by
  simp [encode_time_tag_into, outWrite]

mutual

theorem encode_arg_type_eq (a : OscType) (out : List Nat) :
    encode_arg_type a out = .ok (out ++ argTypeBytes a, (argTypeBytes a).length) := by
  cases a with
  | Array content =>
    rw [encode_arg_type]
    simp only [outWrite, encode_arg_type_list_eq content]
    simp [argTypeBytes]
    omega
  | Bool x => cases x <;> simp [encode_arg_type, argTypeBytes, outWrite]
  | _ => simp [encode_arg_type, argTypeBytes, outWrite]

theorem encode_arg_type_list_eq (args : List OscType) (out : List Nat) :
    encode_arg_type_list args out
      = .ok (out ++ argTypeBytesList args, (argTypeBytesList args).length) := by
  cases args with
  | nil => simp [encode_arg_type_list, argTypeBytesList]
  | cons a rest =>
    rw [encode_arg_type_list]
    simp only [encode_arg_type_eq a, encode_arg_type_list_eq rest]
    simp [argTypeBytesList]

end

mutual

theorem encode_arg_data_eq (a : OscType) (out : List Nat) :
    encode_arg_data a out = .ok (out ++ argDataBytes a, (argDataBytes a).length) := by
  cases a with
  | Array content =>
    rw [encode_arg_data]
    simp only [encode_arg_data_list_eq content]
    simp [argDataBytes]
  | String s => simp [encode_arg_data, argDataBytes, encode_string_into_eq]
  | Time t => simp [encode_arg_data, argDataBytes, encode_time_tag_into_eq]
  | Blob x =>
    have h : x.length ≤ pad x.length := le_pad _
    rw [encode_arg_data]
    simp only [outWrite]
    by_cases hp : 0 < pad x.length - x.length
    · simp only [hp, if_pos]
      simp [argDataBytes]
      omega
    · simp only [hp, if_neg, Nat.not_lt]
      have h0 : pad x.length - x.length = 0 := by omega
      simp [argDataBytes, h0]
      omega
  | _ => simp [encode_arg_data, argDataBytes, outWrite]

theorem encode_arg_data_list_eq (args : List OscType) (out : List Nat) :
    encode_arg_data_list args out
      = .ok (out ++ argDataBytesList args, (argDataBytesList args).length) := by
  cases args with
  | nil => simp [encode_arg_data_list, argDataBytesList]
  | cons a rest =>
    rw [encode_arg_data_list]
    simp only [encode_arg_data_eq a, encode_arg_data_list_eq rest]
    simp [argDataBytesList]

end

theorem encode_message_eq (msg : OscMessage) (out : List Nat) :
    encode_message msg out = .ok (out ++ messageBytes msg, (messageBytes msg).length) := by
  rw [encode_message]
  simp only [encode_string_into_eq, outWrite, encode_arg_type_list_eq,
    encode_arg_data_list_eq]
  have h : (encode_string msg.addr).length + 1 + (argTypeBytesList msg.args).length
      ≤ pad ((encode_string msg.addr).length + 1 + (argTypeBytesList msg.args).length + 1) := by
    exact le_trans (Nat.le_succ _) (le_pad _)
  simp [messageBytes]
  omega

mutual

theorem encode_into_eq (p : OscPacket) (out : List Nat) :
    encode_into p out = .ok (out ++ packetBytes p, (packetBytes p).length) := by
  cases p with
  | Message m =>
    rw [encode_into]
    simpa [packetBytes] using encode_message_eq m out
  | Bundle t cs =>
    rw [encode_into]
    exact encode_bundle_eq t cs out

theorem encode_bundle_eq (t : OscTime) (cs : List OscPacket) (out : List Nat) :
    encode_bundle t cs out
      = .ok (out ++ packetBytes (.Bundle t cs), (packetBytes (.Bundle t cs)).length) := by
  rw [encode_bundle]
  simp only [encode_string_into_eq, encode_time_tag_into_eq, encode_bundle_elements_eq cs]
  simp [packetBytes, encode_string, List.append_assoc]
  omega

theorem encode_bundle_elements_eq (content : List OscPacket) (out : List Nat) :
    encode_bundle_elements content out
      = .ok (out ++ bundleElemsBytes content, (bundleElemsBytes content).length) := by
  cases content with
  | nil => simp [encode_bundle_elements, bundleElemsBytes]
  | cons p rest =>
    rw [encode_bundle_elements]
    simp only [outMark, encode_into_eq p, outPlace]
    have htake : ((out ++ List.replicate 4 0) ++ packetBytes p).take out.length = out := by
      rw [List.append_assoc]
      exact List.take_left out _
    have hdrop : ((out ++ List.replicate 4 0) ++ packetBytes p).drop (out.length + 4)
        = packetBytes p := by
      refine List.drop_left' ?_
      simp
    simp only [htake, hdrop, encode_bundle_elements_eq rest]
    simp [bundleElemsBytes]
    omega

end

theorem encode_eq (p : OscPacket) : encode p = .ok (packetBytes p) := by
  rw [encode, encode_into_eq]
  simp

/-! ### Length invariants: every encoded chunk is a multiple of 4 bytes long -/

mutual

theorem argDataBytes_length_mod4 (a : OscType) : (argDataBytes a).length % 4 = 0 := by
  cases a with
  | String s => simp [argDataBytes, pad_mod_four]
  | Blob x =>
    have h : x.length ≤ pad x.length := le_pad _
    have hm := pad_mod_four x.length
    simp [argDataBytes]
    omega
  | Array content => simpa [argDataBytes] using argDataBytesList_length_mod4 content
  | _ => simp [argDataBytes, u32be, u64be]

theorem argDataBytesList_length_mod4 (args : List OscType) :
    (argDataBytesList args).length % 4 = 0 := by
  cases args with
  | nil => simp [argDataBytesList]
  | cons a rest =>
    have h1 := argDataBytes_length_mod4 a
    have h2 := argDataBytesList_length_mod4 rest
    simp [argDataBytesList]
    omega

end

theorem messageBytes_length (msg : OscMessage) :
    (messageBytes msg).length
      = pad (pad (msg.addr.length + 1) + 1 + (argTypeBytesList msg.args).length + 1)
        + (argDataBytesList msg.args).length := by
  have h1 : pad (msg.addr.length + 1) + 1 + (argTypeBytesList msg.args).length + 1
      ≤ pad (pad (msg.addr.length + 1) + 1 + (argTypeBytesList msg.args).length + 1) :=
    le_pad _
  simp only [messageBytes, encode_string_length, List.length_append, List.length_cons,
    List.length_nil, List.length_replicate]
  omega

theorem messageBytes_length_mod4 (msg : OscMessage) : (messageBytes msg).length % 4 = 0 := by
  have hD := argDataBytesList_length_mod4 msg.args
  have hA := pad_mod_four (msg.addr.length + 1)
  have hw := pad_mod_four
    (pad (msg.addr.length + 1) + 1 + (argTypeBytesList msg.args).length + 1)
  have hle : pad (msg.addr.length + 1) + 1 + (argTypeBytesList msg.args).length + 1
      ≤ pad (pad (msg.addr.length + 1) + 1 + (argTypeBytesList msg.args).length + 1) :=
    le_pad _
  simp [messageBytes]
  omega

mutual

theorem packetBytes_length_mod4 (p : OscPacket) : (packetBytes p).length % 4 = 0 := by
  cases p with
  | Message m => simpa [packetBytes] using messageBytes_length_mod4 m
  | Bundle t cs =>
    have h := bundleElemsBytes_length_mod4 cs
    have h8 : pad 8 = 8 := rfl
    simp [packetBytes, bundleTagBytes]
    omega

theorem bundleElemsBytes_length_mod4 (content : List OscPacket) :
    (bundleElemsBytes content).length % 4 = 0 := by
  cases content with
  | nil => simp [bundleElemsBytes]
  | cons p rest =>
    have h1 := packetBytes_length_mod4 p
    have h2 := bundleElemsBytes_length_mod4 rest
    simp [bundleElemsBytes]
    omega

end

/-! ## Decoder (src/src/decoder.rs)

Every parser takes the bytes remaining in the current window plus the absolute
offset of those bytes from the start of the original top-level buffer (the
`original_input` reference of the source) and yields
`Except OscError (value × remaining bytes × new offset)`.
`original_input.offset(input)` is the offset, so `pad_to_32_bit_boundary`
becomes `take (4 - off % 4)`. -/

/-- nom `be_u32` (complete): four big-endian bytes or `ErrorKind::Eof`. -/
def be_u32_p (buf : List Nat) (off : Nat) : Except OscError (Nat × List Nat × Nat) :=
  match buf with
  | b0 :: b1 :: b2 :: b3 :: rest =>
    .ok (((b0 * 256 + b1) * 256 + b2) * 256 + b3, rest, off + 4)
  | _ => .error (.ReadError .Eof)

/-- nom `be_u64` (complete): eight big-endian bytes or `ErrorKind::Eof`.
(`be_i64`/`be_f64` read the same bytes.) -/
def be_u64_p (buf : List Nat) (off : Nat) : Except OscError (Nat × List Nat × Nat) :=
  match buf with
  | b0 :: b1 :: b2 :: b3 :: b4 :: b5 :: b6 :: b7 :: rest =>
    .ok ((((((((b0 * 256 + b1) * 256 + b2) * 256 + b3) * 256 + b4) * 256 + b5) * 256
      + b6) * 256 + b7), rest, off + 8)
  | _ => .error (.ReadError .Eof)

/-- nom `be_i32`: the `be_u32` bytes reinterpreted as two's complement. -/
def be_i32_p (buf : List Nat) (off : Nat) : Except OscError (Int × List Nat × Nat) :=
  match be_u32_p buf off with
  | .error e => .error e
  | .ok (v, rest, off) =>
    .ok (if v < 2 ^ 31 then (v : Int) else (v : Int) - 2 ^ 32, rest, off)

/-- nom `be_i64`: the `be_u64` bytes reinterpreted as two's complement. -/
def be_i64_p (buf : List Nat) (off : Nat) : Except OscError (Int × List Nat × Nat) :=
  match be_u64_p buf off with
  | .error e => .error e
  | .ok (v, rest, off) =>
    .ok (if v < 2 ^ 63 then (v : Int) else (v : Int) - 2 ^ 64, rest, off)

/-- `read_osc_string` (src/src/decoder.rs:148): `take_till` the first NUL, skip
to the next 4-byte boundary of the original buffer (`pad_to_32_bit_boundary`,
src/src/decoder.rs:281: `take (4 - off % 4)`, which is 1–4 bytes and hence also
consumes the NUL terminator), then validate UTF-8 (`String::from_utf8`).  The
`trim_matches('\0')` of the source is a no-op because the `take_till` output
contains no NUL byte. -/
def read_osc_string (buf : List Nat) (off : Nat) :
    Except OscError (List Nat × List Nat × Nat) :=
  let s := buf.takeWhile (fun b => b != 0)
  let rest := buf.drop s.length
  let padTake := 4 - (off + s.length) % 4
  if padTake ≤ rest.length then
    if utf8Valid s then .ok (s, rest.drop padTake, off + s.length + padTake)
    else .error .StringError
  else .error (.ReadError .Eof)

/-- `read_time_tag` (src/src/decoder.rs:252). -/
def read_time_tag (buf : List Nat) (off : Nat) :
    Except OscError (OscTime × List Nat × Nat) :=
  match be_u32_p buf off with
  | .error e => .error e
  | .ok (seconds, buf, off) =>
    match be_u32_p buf off with
    | .error e => .error e
    | .ok (fractional, buf, off) => .ok (⟨seconds, fractional⟩, buf, off)

/-- `read_char` (src/src/decoder.rs:230): `char::from_u32` succeeds exactly on
non-surrogate code points below `0x110000`. -/
def read_char (buf : List Nat) (off : Nat) : Except OscError (OscType × List Nat × Nat) :=
  match be_u32_p buf off with
  | .error e => .error e
  | .ok (b, buf, off) =>
    if b < 0xD800 || (0xE000 ≤ b && b < 0x110000) then .ok (.Char b, buf, off)
    else .error (.BadArg "Argument is not a char!")

/-- `read_blob` (src/src/decoder.rs:240): 4-byte length, `take` that many
bytes, then `pad_to_32_bit_boundary` (`take (4 - off % 4)`). -/
def read_blob (buf : List Nat) (off : Nat) : Except OscError (OscType × List Nat × Nat) :=
  match be_u32_p buf off with
  | .error e => .error e
  | .ok (size, buf, off) =>
    if size ≤ buf.length then
      let blob := buf.take size
      let rest := buf.drop size
      let padTake := 4 - (off + size) % 4
      if padTake ≤ rest.length then .ok (.Blob blob, rest.drop padTake, off + size + padTake)
      else .error (.ReadError .Eof)
    else .error (.ReadError .Eof)

/-- `read_midi_message` (src/src/decoder.rs:259): `take(4)`. -/
def read_midi_message (buf : List Nat) (off : Nat) :
    Except OscError (OscType × List Nat × Nat) :=
  match buf with
  | b0 :: b1 :: b2 :: b3 :: rest => .ok (.Midi ⟨b0, b1, b2, b3⟩, rest, off + 4)
  | _ => .error (.ReadError .Eof)

/-- `read_osc_color` (src/src/decoder.rs:270): `take(4)`. -/
def read_osc_color (buf : List Nat) (off : Nat) :
    Except OscError (OscType × List Nat × Nat) :=
  match buf with
  | b0 :: b1 :: b2 :: b3 :: rest => .ok (.Color ⟨b0, b1, b2, b3⟩, rest, off + 4)
  | _ => .error (.ReadError .Eof)

/-- `read_osc_arg` (src/src/decoder.rs:202), dispatching on the tag character
(a Unicode scalar value; the message payload of the unknown-tag error includes
the offending tag). -/
def read_osc_arg (buf : List Nat) (off : Nat) (tag : Nat) :
    Except OscError (OscType × List Nat × Nat) :=
  if tag = 0x66 then
    match be_u32_p buf off with
    | .error e => .error e
    | .ok (bits, buf, off) => .ok (.Float bits, buf, off)
  else if tag = 0x64 then
    match be_u64_p buf off with
    | .error e => .error e
    | .ok (bits, buf, off) => .ok (.Double bits, buf, off)
  else if tag = 0x69 then
    match be_i32_p buf off with
    | .error e => .error e
    | .ok (x, buf, off) => .ok (.Int x, buf, off)
  else if tag = 0x68 then
    match be_i64_p buf off with
    | .error e => .error e
    | .ok (x, buf, off) => .ok (.Long x, buf, off)
  else if tag = 0x73 then
    match read_osc_string buf off with
    | .error e => .error e
    | .ok (s, buf, off) => .ok (.String s, buf, off)
  else if tag = 0x74 then
    match read_time_tag buf off with
    | .error e => .error e
    | .ok (t, buf, off) => .ok (.Time t, buf, off)
  else if tag = 0x62 then read_blob buf off
  else if tag = 0x72 then read_osc_color buf off
  else if tag = 0x54 then .ok (.Bool true, buf, off)
  else if tag = 0x46 then .ok (.Bool false, buf, off)
  else if tag = 0x4E then .ok (.Nil, buf, off)
  else if tag = 0x49 then .ok (.Inf, buf, off)
  else if tag = 0x63 then read_char buf off
  else if tag = 0x6D then read_midi_message buf off
  else .error (.BadArg ("Type tag is not implemented: " ++ toString tag))

/-- The `for tag in type_tags` loop of `read_osc_args` (src/src/decoder.rs:174)
with its explicit stack of in-progress argument lists: `[` stashes the current
frame, `]` pops (an empty stack is `BadMessage`), any other tag reads one
argument (`Vec::push` appends at the end).  When the tags are exhausted the
current frame is returned as-is (stashed frames of unclosed `[`s are
dropped, as in the source). -/
def read_osc_args_go :
    List Nat → List OscType → List (List OscType) → List Nat → Nat →
    Except OscError (List OscType × List Nat × Nat)
  | [], args, _stack, buf, off => .ok (args, buf, off)
  | tag :: tags, args, stack, buf, off =>
    if tag = 0x5B then read_osc_args_go tags [] (args :: stack) buf off
    else if tag = 0x5D then
      match stack with
      | stashed :: stack => read_osc_args_go tags (stashed ++ [.Array args]) stack buf off
      | [] => .error (.BadMessage "Encountered ] outside array")
    else
      match read_osc_arg buf off tag with
      | .error e => .error e
      | .ok (arg, buf, off) => read_osc_args_go tags (args ++ [arg]) stack buf off

/-- `read_osc_args` (src/src/decoder.rs:165): iterate over
`raw_type_tags.chars().skip(1)` — the first character is skipped without any
check that it is `','`. -/
def read_osc_args (buf : List Nat) (off : Nat) (raw_type_tags : List Nat) :
    Except OscError (List OscType × List Nat × Nat) :=
  read_osc_args_go ((utf8Chars raw_type_tags).drop 1) [] [] buf off

/-- `decode_message` (src/src/decoder.rs:103): read the type-tag string; only
when its byte length exceeds 1 are arguments read (`String::len` is the byte
length). -/
def decode_message (addr : List Nat) (buf : List Nat) (off : Nat) :
    Except OscError (OscPacket × List Nat × Nat) :=
  match read_osc_string buf off with
  | .error e => .error e
  | .ok (type_tags, buf, off) =>
    if 1 < type_tags.length then
      match read_osc_args buf off type_tags with
      | .error e => .error e
      | .ok (args, buf, off) => .ok (.Message ⟨addr, args⟩, buf, off)
    else .ok (.Message ⟨addr, []⟩, buf, off)

mutual

/-- `decode_packet` (src/src/decoder.rs:84).  Dispatch is on
`addr.chars().next()`: on a UTF-8-valid string the first character is `'/'`
(resp. `'#'`) exactly when the first byte is `0x2F` (resp. `0x23`), because an
ASCII character is its own lead byte and multi-byte characters have lead bytes
`≥ 0xC2`; on a UTF-8-invalid string `read_osc_string` has already failed, so
the byte-level dispatch below is exact.  The `fuel` argument only bounds the
recursion depth through bundle elements; every entry point passes
`buf.length + 1`, and each recursive call strictly shrinks the buffer, so the
`fuel = 0` case is unreachable (its value is irrelevant). -/
def decode_packet (fuel : Nat) (buf : List Nat) (off : Nat) :
    Except OscError (OscPacket × List Nat × Nat) :=
  match fuel with
  | 0 => .error (.BadPacket "Empty packet.")
  | fuel + 1 =>
    if buf.isEmpty then .error (.BadPacket "Empty packet.")
    else
      match read_osc_string buf off with
      | .error e => .error e
      | .ok (addr, buf, off) =>
        match addr with
        | b :: _ =>
          if b = 0x2F then decode_message addr buf off
          else if b = 0x23 then
            if addr = bundleTagBytes then
              -- `decode_bundle` (src/src/decoder.rs:118), inlined here so that
              -- every recursive call strictly decreases `fuel`: the time tag,
              -- then `many0(read_bundle_element)`, wrapped as a bundle packet.
              match read_time_tag buf off with
              | .error e => .error e
              | .ok (timetag, buf, off) =>
                match read_bundle_elements fuel buf off with
                | (content, buf, off) => .ok (.Bundle timetag content, buf, off)
            else .error (.BadPacket "Invalid message address or bundle tag")
          else .error (.BadPacket "Invalid message address or bundle tag")
        | [] => .error (.BadPacket "Invalid message address or bundle tag")

/-- `many0(read_bundle_element)` with `read_bundle_element`
(src/src/decoder.rs:130) inlined: read a 4-byte element size (`be_u32`),
`take` that many bytes as a window (failure is `BadBundle "Bundle shorter than
expected!"`), decode the window as a packet (`map_parser` discards whatever the
inner parser leaves of the window).  `many0` stops at the first element error
and succeeds with the packets collected so far, leaving the input at the start
of the failed element; no parser in this crate produces `Err::Failure`, and an
element always consumes at least the 4 size bytes, so `many0`'s
zero-consumption check never fires. -/
def read_bundle_elements (fuel : Nat) (buf : List Nat) (off : Nat) :
    List OscPacket × List Nat × Nat :=
  match fuel with
  | 0 => ([], buf, off)
  | fuel + 1 =>
    match be_u32_p buf off with
    | .error _ => ([], buf, off)
    | .ok (elem_size, afterLen, offLen) =>
      if elem_size ≤ afterLen.length then
        match decode_packet fuel (afterLen.take elem_size) offLen with
        | .error _ => ([], buf, off)
        | .ok (p, _, _) =>
          match read_bundle_elements fuel (afterLen.drop elem_size) (offLen + elem_size) with
          | (ps, b, o) => (p :: ps, b, o)
      else ([], buf, off)

end

/-- `decode_udp` (src/src/decoder.rs:23): decode one packet with the whole
buffer as the original input; `Err::Incomplete` cannot occur (complete
parsers), so errors pass through unchanged. -/
def decode_udp (msg : List Nat) : Except OscError (List Nat × OscPacket) :=
  match decode_packet (msg.length + 1) msg 0 with
  | .ok (osc_packet, remainder, _) => .ok (remainder, osc_packet)
  | .error e => .error e

/-- `decode_tcp` (src/src/decoder.rs:44): read the 4-byte frame length; if it
exceeds the length of the *whole* buffer (prefix included), return the buffer
unchanged with `None`; otherwise decode one packet from the rest, with the
whole buffer (including the prefix) as the original input for offsets. -/
def decode_tcp (msg : List Nat) : Except OscError (List Nat × Option OscPacket) :=
  match be_u32_p msg 0 with
  | .error e => .error e
  | .ok (osc_packet_length, input, off) =>
    if msg.length < osc_packet_length then .ok (msg, none)
    else
      match decode_packet (input.length + 1) input off with
      | .ok (osc_packet, remainder, _) => .ok (remainder, some osc_packet)
      | .error e => .error e

/-- The `while let (remainder, Some(osc_packet)) = decode_tcp(input)?` loop of
`decode_tcp_vec` (src/src/decoder.rs:68): push and continue on `Some` (breaking
once the remainder is empty), stop on `None` returning the input unchanged,
propagate errors.  Each `Some` iteration consumes at least the 4 prefix bytes,
so `fuel = msg.length + 1` never runs out. -/
def decode_tcp_vec_go (fuel : Nat) (input : List Nat) :
    Except OscError (List Nat × List OscPacket) :=
  match fuel with
  | 0 => .ok (input, [])
  | fuel + 1 =>
    match decode_tcp input with
    | .error e => .error e
    | .ok (_, none) => .ok (input, [])
    | .ok (remainder, some osc_packet) =>
      if remainder.isEmpty then .ok (remainder, [osc_packet])
      else
        match decode_tcp_vec_go fuel remainder with
        | .error e => .error e
        | .ok (rem, ps) => .ok (rem, osc_packet :: ps)

/-- `decode_tcp_vec` (src/src/decoder.rs:68). -/
def decode_tcp_vec (msg : List Nat) : Except OscError (List Nat × List OscPacket) :=
  decode_tcp_vec_go (msg.length + 1) msg

/-! ## Wire round-trippable packets

`wfString`/`wfAddr`/`wfType`/`wfPacket` collect, per constructor, (a) the Rust
type invariants erased by the `Nat`/`Int` embedding (`u8 < 256`, `u32 < 2^32`,
`i32` range, `char` a Unicode scalar value, `String` valid UTF-8) and (b) the
wire-format constraints without which a value cannot survive the NUL-terminated
string / `'/'`-dispatch / blob-padding decoding: strings NUL-free, addresses
starting with `'/'`, and — forced by the decoder consuming
`4 - offset % 4 ∈ [1,4]` padding bytes after every blob even though the encoder
writes none when the blob length is a multiple of 4 — blob lengths not
divisible by 4. -/

/-- NUL-free valid UTF-8 (the invariant of a Rust `String` plus
NUL-freeness). -/
def wfString (s : List Nat) : Bool :=
  utf8Valid s && s.all (fun b => b != 0)

/-- A well-formed address: NUL-free valid UTF-8 starting with `'/'`. -/
def wfAddr (s : List Nat) : Bool :=
  match s with
  | b :: _ => (b == 0x2F) && wfString s
  | [] => false

mutual

/-- Per-argument well-formedness (see section comment). -/
def wfType : OscType → Bool
  | .Int x => decide (-(2 ^ 31) ≤ x) && decide (x < 2 ^ 31)
  | .Float bits => decide (bits < 2 ^ 32)
  | .String s => wfString s
  | .Blob b =>
    decide (b.length < 2 ^ 32) && decide (b.length % 4 ≠ 0) && b.all (fun v => decide (v < 256))
  | .Time t => decide (t.seconds < 2 ^ 32) && decide (t.fractional < 2 ^ 32)
  | .Long x => decide (-(2 ^ 63) ≤ x) && decide (x < 2 ^ 63)
  | .Double bits => decide (bits < 2 ^ 64)
  | .Char c => decide (c < 0xD800) || (decide (0xE000 ≤ c) && decide (c < 0x110000))
  | .Color c =>
    decide (c.red < 256) && decide (c.green < 256) && decide (c.blue < 256)
      && decide (c.alpha < 256)
  | .Midi m =>
    decide (m.port < 256) && decide (m.status < 256) && decide (m.data1 < 256)
      && decide (m.data2 < 256)
  | .Bool _ => true
  | .Nil => true
  | .Inf => true
  | .Array content => wfTypeList content

def wfTypeList : List OscType → Bool
  | [] => true
  | a :: rest => wfType a && wfTypeList rest

end

mutual

/-- Packet well-formedness: well-formed address and arguments for messages;
`u32` time tag fields and well-formed children whose encodings fit the `u32`
length prefix for bundles. -/
def wfPacket : OscPacket → Bool
  | .Message m => wfAddr m.addr && wfTypeList m.args
  | .Bundle t cs =>
    decide (t.seconds < 2 ^ 32) && decide (t.fractional < 2 ^ 32) && wfPacketList cs

def wfPacketList : List OscPacket → Bool
  | [] => true
  | p :: rest => wfPacket p && decide ((packetBytes p).length < 2 ^ 32) && wfPacketList rest

end

/-! ## Round-trip lemmas: each decoder component inverts its encoder
counterpart at 4-aligned offsets -/

theorem be_u32_p_u32be {n : Nat} (h : n < 2 ^ 32) (rest : List Nat) (off : Nat) :
    be_u32_p (u32be n ++ rest) off = .ok (n, rest, off + 4) := by
  simp [u32be, be_u32_p]
  omega

theorem be_u64_p_u64be {n : Nat} (h : n < 2 ^ 64) (rest : List Nat) (off : Nat) :
    be_u64_p (u64be n ++ rest) off = .ok (n, rest, off + 8) := by
  simp [u64be, be_u64_p]
  omega

theorem u32ofI32_lt (x : Int) : u32ofI32 x < 2 ^ 32 := by
  unfold u32ofI32
  omega

theorem u64ofI64_lt (x : Int) : u64ofI64 x < 2 ^ 64 := by
  unfold u64ofI64
  omega

theorem be_i32_p_i32be {x : Int} (h1 : -(2 ^ 31) ≤ x) (h2 : x < 2 ^ 31)
    (rest : List Nat) (off : Nat) :
    be_i32_p (u32be (u32ofI32 x) ++ rest) off = .ok (x, rest, off + 4) := by
  rw [be_i32_p, be_u32_p_u32be (u32ofI32_lt x)]
  have hv : (if u32ofI32 x < 2 ^ 31 then ((u32ofI32 x : Nat) : Int)
      else ((u32ofI32 x : Nat) : Int) - 2 ^ 32) = x := by
    unfold u32ofI32
    split <;> omega
  dsimp only
  rw [hv]

theorem be_i64_p_i64be {x : Int} (h1 : -(2 ^ 63) ≤ x) (h2 : x < 2 ^ 63)
    (rest : List Nat) (off : Nat) :
    be_i64_p (u64be (u64ofI64 x) ++ rest) off = .ok (x, rest, off + 8) := by
  rw [be_i64_p, be_u64_p_u64be (u64ofI64_lt x)]
  have hv : (if u64ofI64 x < 2 ^ 63 then ((u64ofI64 x : Nat) : Int)
      else ((u64ofI64 x : Nat) : Int) - 2 ^ 64) = x := by
    unfold u64ofI64
    split <;> omega
  dsimp only
  rw [hv]

/-- `takeWhile` runs through a prefix on which the predicate holds. -/
theorem takeWhile_append_of_all {p : Nat → Bool} {s : List Nat}
    (h : ∀ b ∈ s, p b = true) (t : List Nat) :
    (s ++ t).takeWhile p = s ++ t.takeWhile p := by
  induction s with
  | nil => rfl
  | cons b rest ih =>
    have hb : p b = true := h b (List.mem_cons_self b rest)
    simp [List.takeWhile_cons, hb]
    exact ih fun c hc => h c (List.mem_cons_of_mem _ hc)

theorem takeWhile_zero_led {k : Nat} (hk : 0 < k) (rest : List Nat) :
    (List.replicate k 0 ++ rest).takeWhile (fun b => b != 0) = [] := by
  cases k with
  | zero => omega
  | succ k => simp [List.replicate_succ, List.takeWhile_cons]

/-- `read_osc_string` on a NUL-free valid-UTF-8 string followed by `k` NUL
bytes, where `k` is exactly the 1–4 byte padding distance to the next 4-byte
boundary. -/
theorem read_osc_string_enc {s : List Nat} {k off : Nat}
    (hnul : ∀ b ∈ s, b ≠ 0) (hvalid : utf8Valid s = true)
    (hk : k = 4 - (off + s.length) % 4) (rest : List Nat) :
    read_osc_string (s ++ (List.replicate k 0 ++ rest)) off
      = .ok (s, rest, off + s.length + k) := by
  have hk1 : 0 < k := by omega
  have htw : ((s ++ (List.replicate k 0 ++ rest)).takeWhile fun b => b != 0) = s := by
    rw [takeWhile_append_of_all (fun b hb => by simp [hnul b hb]),
      takeWhile_zero_led hk1, List.append_nil]
  have hdrop : (s ++ (List.replicate k 0 ++ rest)).drop s.length
      = List.replicate k 0 ++ rest := List.drop_left s _
  have hcond : 4 - (off + s.length) % 4 ≤ (List.replicate k 0 ++ rest).length := by
    simp
    omega
  have hdrop2 : (List.replicate k 0 ++ rest).drop (4 - (off + s.length) % 4) = rest := by
    rw [← hk]
    exact List.drop_left' (by simp)
  rw [read_osc_string]
  simp only [htw, hdrop, hcond, ite_true, hvalid, hdrop2]
  rw [hk]

/-- `read_osc_string` after `encode_string` at a 4-aligned offset. -/
theorem read_osc_string_encode_string {s : List Nat} {off : Nat}
    (hnul : ∀ b ∈ s, b ≠ 0) (hvalid : utf8Valid s = true) (hoff : off % 4 = 0)
    (rest : List Nat) :
    read_osc_string (encode_string s ++ rest) off
      = .ok (s, rest, off + pad (s.length + 1)) := by
  have hk : pad (s.length + 1) - s.length = 4 - (off + s.length) % 4 := by
    have := pad_succ_sub s.length
    omega
  have hres := read_osc_string_enc hnul hvalid hk rest
  rw [encode_string, List.append_assoc, hres]
  have harith : off + s.length + (pad (s.length + 1) - s.length) = off + pad (s.length + 1) := by
    have : s.length ≤ pad (s.length + 1) := le_trans (Nat.le_succ _) (le_pad _)
    omega
  rw [harith]

theorem read_time_tag_enc {a b : Nat} (ha : a < 2 ^ 32) (hb : b < 2 ^ 32)
    (rest : List Nat) (off : Nat) :
    read_time_tag (u32be a ++ (u32be b ++ rest)) off
      = .ok (⟨a, b⟩, rest, off + 8) := by
  rw [read_time_tag, be_u32_p_u32be ha]
  dsimp only
  rw [be_u32_p_u32be hb]

theorem read_char_enc {c : Nat} (hc : c < 0xD800 ∨ (0xE000 ≤ c ∧ c < 0x110000))
    (rest : List Nat) (off : Nat) :
    read_char (u32be c ++ rest) off = .ok (.Char c, rest, off + 4) := by
  have hlt : c < 2 ^ 32 := by omega
  rw [read_char, be_u32_p_u32be hlt]
  dsimp only
  have hcond : (decide (c < 0xD800) || (decide (0xE000 ≤ c) && decide (c < 0x110000)))
      = true := by
    simp only [Bool.or_eq_true, Bool.and_eq_true, decide_eq_true_eq]
    omega
  simp only [hcond, ite_true]

theorem read_blob_enc {b : List Nat} {off : Nat} (hlen : b.length < 2 ^ 32)
    (hmod : b.length % 4 ≠ 0) (hoff : off % 4 = 0) (rest : List Nat) :
    read_blob (u32be b.length ++ (b ++ (List.replicate (pad b.length - b.length) 0 ++ rest)))
        off
      = .ok (.Blob b, rest, off + 4 + pad b.length) := by
  have hpadlen : pad b.length - b.length = 4 - b.length % 4 := by
    rw [pad_eq]
    split <;> omega
  rw [read_blob, be_u32_p_u32be hlen]
  dsimp only
  have hsize : b.length ≤ (b ++ (List.replicate (pad b.length - b.length) 0 ++ rest)).length := by
    simp
  rw [if_pos hsize]
  have htake : (b ++ (List.replicate (pad b.length - b.length) 0 ++ rest)).take b.length = b :=
    List.take_left b _
  have hdrop : (b ++ (List.replicate (pad b.length - b.length) 0 ++ rest)).drop b.length
      = List.replicate (pad b.length - b.length) 0 ++ rest := List.drop_left b _
  rw [htake, hdrop]
  have hpt : 4 - (off + 4 + b.length) % 4 = pad b.length - b.length := by
    omega
  rw [hpt]
  have hcond : pad b.length - b.length
      ≤ (List.replicate (pad b.length - b.length) 0 ++ rest).length := by
    simp
  rw [if_pos hcond]
  have hdrop2 : (List.replicate (pad b.length - b.length) 0 ++ rest).drop
      (pad b.length - b.length) = rest := List.drop_left' (by simp)
  rw [hdrop2]
  have hble : b.length ≤ pad b.length := le_pad _
  have harith : off + 4 + b.length + (pad b.length - b.length) = off + 4 + pad b.length := by
    omega
  rw [harith]

theorem read_midi_message_enc (p s d1 d2 : Nat) (rest : List Nat) (off : Nat) :
    read_midi_message (p :: s :: d1 :: d2 :: rest) off
      = .ok (.Midi ⟨p, s, d1, d2⟩, rest, off + 4) := rfl

theorem read_osc_color_enc (r g bl a : Nat) (rest : List Nat) (off : Nat) :
    read_osc_color (r :: g :: bl :: a :: rest) off
      = .ok (.Color ⟨r, g, bl, a⟩, rest, off + 4) := rfl

/-! ### Type-tag bytes are nonzero ASCII and nonempty -/

mutual

theorem argTypeBytes_ascii (a : OscType) :
    ∀ b ∈ argTypeBytes a, 0 < b ∧ b ≤ 0x7F := by
  cases a with
  | Bool x => cases x <;> simp [argTypeBytes]
  | Array content =>
    intro b hb
    simp only [argTypeBytes, List.mem_cons, List.mem_append, List.mem_singleton] at hb
    rcases hb with (rfl | h) | (rfl | h)
    · omega
    · exact argTypeBytesList_ascii content b h
    · omega
    · exact absurd h (List.not_mem_nil b)
  | _ => simp [argTypeBytes]

theorem argTypeBytesList_ascii (args : List OscType) :
    ∀ b ∈ argTypeBytesList args, 0 < b ∧ b ≤ 0x7F := by
  cases args with
  | nil => simp [argTypeBytesList]
  | cons a rest =>
    intro b hb
    simp only [argTypeBytesList, List.mem_append] at hb
    rcases hb with h | h
    · exact argTypeBytes_ascii a b h
    · exact argTypeBytesList_ascii rest b h

end

theorem argTypeBytes_ne_nil (a : OscType) : argTypeBytes a ≠ [] := by
  cases a with
  | Bool x => cases x <;> simp [argTypeBytes]
  | _ => simp [argTypeBytes]

theorem argTypeBytesList_ne_nil {args : List OscType} (h : args ≠ []) :
    argTypeBytesList args ≠ [] := by
  cases args with
  | nil => exact absurd rfl h
  | cons a rest =>
    simp only [argTypeBytesList]
    intro hc
    exact argTypeBytes_ne_nil a (List.append_eq_nil.mp hc).1

/-! ### The argument loop inverts the encoder's tag/payload pair -/

mutual

/-- Processing one well-formed argument's tag bytes and payload bytes moves the
loop forward: the argument is appended to the current frame and exactly its
payload is consumed. -/
theorem read_osc_args_go_arg (a : OscType) (ha : wfType a = true) :
    ∀ (tags : List Nat) (args : List OscType) (stack : List (List OscType))
      (rest : List Nat) (off : Nat), off % 4 = 0 →
    read_osc_args_go (argTypeBytes a ++ tags) args stack (argDataBytes a ++ rest) off
      = read_osc_args_go tags (args ++ [a]) stack rest (off + (argDataBytes a).length) := by
  cases a with
  | Int x =>
    intro tags args stack rest off _hoff
    simp only [wfType, Bool.and_eq_true, decide_eq_true_eq] at ha
    simp only [argTypeBytes, argDataBytes, List.singleton_append, read_osc_args_go]
    norm_num [read_osc_arg, be_i32_p_i32be ha.1 ha.2]
  | Long x =>
    intro tags args stack rest off _hoff
    simp only [wfType, Bool.and_eq_true, decide_eq_true_eq] at ha
    simp only [argTypeBytes, argDataBytes, List.singleton_append, read_osc_args_go]
    norm_num [read_osc_arg, be_i64_p_i64be ha.1 ha.2]
  | Float bits =>
    intro tags args stack rest off _hoff
    simp only [wfType, decide_eq_true_eq] at ha
    simp only [argTypeBytes, argDataBytes, List.singleton_append, read_osc_args_go]
    norm_num [read_osc_arg, be_u32_p_u32be ha]
  | Double bits =>
    intro tags args stack rest off _hoff
    simp only [wfType, decide_eq_true_eq] at ha
    simp only [argTypeBytes, argDataBytes, List.singleton_append, read_osc_args_go]
    norm_num [read_osc_arg, be_u64_p_u64be ha]
  | Char c =>
    intro tags args stack rest off _hoff
    simp only [wfType, Bool.or_eq_true, Bool.and_eq_true, decide_eq_true_eq] at ha
    have hc : c < 0xD800 ∨ (0xE000 ≤ c ∧ c < 0x110000) := ha
    simp only [argTypeBytes, argDataBytes, List.singleton_append, read_osc_args_go]
    norm_num [read_osc_arg, read_char_enc hc]
  | String s =>
    intro tags args stack rest off hoff
    simp only [wfType, wfString, Bool.and_eq_true, List.all_eq_true] at ha
    have hnul : ∀ b ∈ s, b ≠ 0 := fun b hb => by
      have := ha.2 b hb
      simpa using this
    simp only [argTypeBytes, argDataBytes, List.singleton_append, read_osc_args_go]
    norm_num [read_osc_arg, read_osc_string_encode_string hnul ha.1 hoff]
  | Blob b =>
    intro tags args stack rest off hoff
    simp only [wfType, Bool.and_eq_true, decide_eq_true_eq, List.all_eq_true] at ha
    have hble : b.length ≤ pad b.length := le_pad _
    have hplt := pad_lt b.length
    have hpm := pad_mod_four b.length
    simp only [argTypeBytes, argDataBytes, List.singleton_append, read_osc_args_go]
    norm_num [read_osc_arg, read_blob_enc ha.1.1 ha.1.2 hoff]
    congr 1
    omega
  | Time t =>
    intro tags args stack rest off _hoff
    simp only [wfType, Bool.and_eq_true, decide_eq_true_eq] at ha
    simp only [argTypeBytes, argDataBytes, List.singleton_append, read_osc_args_go]
    norm_num [read_osc_arg, read_time_tag_enc ha.1 ha.2]
  | Midi m =>
    intro tags args stack rest off _hoff
    simp only [argTypeBytes, argDataBytes, List.singleton_append, read_osc_args_go]
    norm_num [read_osc_arg, read_midi_message_enc]
  | Color c =>
    intro tags args stack rest off _hoff
    simp only [argTypeBytes, argDataBytes, List.singleton_append, read_osc_args_go]
    norm_num [read_osc_arg, read_osc_color_enc]
  | Bool x =>
    intro tags args stack rest off _hoff
    cases x <;>
      · simp only [argTypeBytes, argDataBytes, List.singleton_append, read_osc_args_go,
          List.nil_append]
        norm_num [read_osc_arg]
  | Nil =>
    intro tags args stack rest off _hoff
    simp only [argTypeBytes, argDataBytes, List.singleton_append, read_osc_args_go,
      List.nil_append]
    norm_num [read_osc_arg]
  | Inf =>
    intro tags args stack rest off _hoff
    simp only [argTypeBytes, argDataBytes, List.singleton_append, read_osc_args_go,
      List.nil_append]
    norm_num [read_osc_arg]
  | Array content =>
    intro tags args stack rest off hoff
    have hwf : wfTypeList content = true := by simpa [wfType] using ha
    simp only [argTypeBytes, argDataBytes, List.cons_append, List.append_assoc,
      List.singleton_append, read_osc_args_go]
    norm_num
    rw [read_osc_args_go_args content hwf (0x5D :: tags) [] (args :: stack) rest off hoff]
    simp only [List.nil_append, read_osc_args_go]
    norm_num

theorem read_osc_args_go_args (l : List OscType) (hl : wfTypeList l = true) :
    ∀ (tags : List Nat) (args : List OscType) (stack : List (List OscType))
      (rest : List Nat) (off : Nat), off % 4 = 0 →
    read_osc_args_go (argTypeBytesList l ++ tags) args stack (argDataBytesList l ++ rest) off
      = read_osc_args_go tags (args ++ l) stack rest
          (off + (argDataBytesList l).length) := by
  cases l with
  | nil =>
    intro tags args stack rest off _hoff
    simp [argTypeBytesList, argDataBytesList]
  | cons a rest' =>
    intro tags args stack rest off hoff
    simp only [wfTypeList, Bool.and_eq_true] at hl
    have hoff' : (off + (argDataBytes a).length) % 4 = 0 := by
      have := argDataBytes_length_mod4 a
      omega
    simp only [argTypeBytesList, argDataBytesList, List.append_assoc]
    rw [read_osc_args_go_arg a hl.1 _ args stack _ off hoff,
      read_osc_args_go_args rest' hl.2 tags (args ++ [a]) stack rest _ hoff']
    congr 1
    · simp
    · simp
      omega

end

/-! ### Message round trip -/

/-- The tag bytes of an argument list, preceded by any nonzero byte, are
nonzero. -/
theorem tagString_nul_free (h : Nat) (hh : h ≠ 0) (args : List OscType) :
    ∀ c ∈ h :: argTypeBytesList args, c ≠ 0 := by
  intro c hc
  rcases List.mem_cons.mp hc with rfl | hc
  · exact hh
  · have := argTypeBytesList_ascii args c hc
    omega

/-- The tag bytes of an argument list, preceded by any ASCII byte, are ASCII,
hence valid UTF-8. -/
theorem tagString_valid (h : Nat) (hh : h ≤ 0x7F) (args : List OscType) :
    utf8Valid (h :: argTypeBytesList args) = true := by
  refine utf8Valid_of_ascii ?_
  intro c hc
  rcases List.mem_cons.mp hc with rfl | hc
  · exact hh
  · exact (argTypeBytesList_ascii args c hc).2

/-- `chars()` of an ASCII-headed tag string is the identity. -/
theorem tagString_chars (h : Nat) (hh : h ≤ 0x7F) (args : List OscType) :
    utf8Chars (h :: argTypeBytesList args) = h :: argTypeBytesList args := by
  refine utf8Chars_of_ascii ?_
  intro c hc
  rcases List.mem_cons.mp hc with rfl | hc
  · exact hh
  · exact (argTypeBytesList_ascii args c hc).2

/-- `decode_message` on a tag string whose first byte is an arbitrary nonzero
ASCII byte `h` — the decoder never checks that this byte is `','`; it is
skipped unconditionally — followed by the encoder's tag bytes for `args`, the
`k`-byte NUL padding, the payload bytes and trailing bytes.  A tag string of
byte length at most 1 (that is, `args = []`, where the string is just `[h]`)
short-circuits to zero arguments without touching the payload. -/
theorem decode_message_tags (addr : List Nat) (args : List OscType)
    (hargs : wfTypeList args = true) (h : Nat) (hh0 : h ≠ 0) (hh7 : h ≤ 0x7F)
    {k off1 : Nat} (rest' : List Nat)
    (hoff1 : off1 % 4 = 0)
    (hk : k = 4 - (off1 + (1 + (argTypeBytesList args).length)) % 4) :
    decode_message addr
        ((h :: argTypeBytesList args)
          ++ (List.replicate k 0 ++ (argDataBytesList args ++ rest'))) off1
      = .ok (.Message ⟨addr, args⟩, rest',
          off1 + (1 + (argTypeBytesList args).length) + k
            + (argDataBytesList args).length) := by
  have hk' : k = 4 - (off1 + (h :: argTypeBytesList args).length) % 4 := by
    simp only [List.length_cons]
    omega
  rw [decode_message,
    read_osc_string_enc (tagString_nul_free h hh0 args) (tagString_valid h hh7 args) hk'
      (argDataBytesList args ++ rest')]
  dsimp only
  cases hargs0 : args with
  | nil =>
    rw [if_neg (by simp [argTypeBytesList] :
      ¬1 < (h :: argTypeBytesList ([] : List OscType)).length)]
    simp [argTypeBytesList, argDataBytesList]
  | cons a0 args' =>
    have hTne : argTypeBytesList (a0 :: args') ≠ [] := argTypeBytesList_ne_nil (by simp)
    have hTpos : 0 < (argTypeBytesList (a0 :: args')).length := List.length_pos.mpr hTne
    rw [if_pos (by simp only [List.length_cons]; omega :
      1 < (h :: argTypeBytesList (a0 :: args')).length)]
    rw [read_osc_args, tagString_chars h hh7]
    simp only [List.drop_succ_cons, List.drop_zero]
    rw [← hargs0] at hTpos ⊢
    have hoff2 : (off1 + (h :: argTypeBytesList args).length + k) % 4 = 0 := by
      simp only [List.length_cons] at *
      omega
    have hgo := read_osc_args_go_args args hargs [] [] [] rest'
      (off1 + (h :: argTypeBytesList args).length + k) hoff2
    rw [List.append_nil] at hgo
    rw [hgo]
    simp only [read_osc_args_go, List.nil_append]
    congr 2
    simp only [List.length_cons, Prod.mk.injEq]
    exact ⟨trivial, by omega⟩

/-- `decode_message` on the encoder's `','`-headed tag string. -/
theorem decode_message_enc (addr : List Nat) (args : List OscType)
    (hargs : wfTypeList args = true) {k off1 : Nat} (rest' : List Nat)
    (hoff1 : off1 % 4 = 0)
    (hk : k = 4 - (off1 + (1 + (argTypeBytesList args).length)) % 4) :
    decode_message addr
        (((0x2C : Nat) :: argTypeBytesList args)
          ++ (List.replicate k 0 ++ (argDataBytesList args ++ rest'))) off1
      = .ok (.Message ⟨addr, args⟩, rest',
          off1 + (1 + (argTypeBytesList args).length) + k
            + (argDataBytesList args).length) :=
  decode_message_tags addr args hargs 0x2C (by omega) (by omega) rest' hoff1 hk

/-- Decoding an encoded well-formed message at a 4-aligned offset yields the
message back and leaves exactly the trailing bytes. -/
theorem decode_packet_message (m : OscMessage) (hwf : wfPacket (.Message m) = true)
    (fuel : Nat) (rest : List Nat) (off : Nat) (hoff : off % 4 = 0) :
    decode_packet (fuel + 1) (messageBytes m ++ rest) off
      = .ok (.Message m, rest, off + (messageBytes m).length) := by
  obtain ⟨addr, args⟩ := m
  simp only [wfPacket, Bool.and_eq_true] at hwf
  obtain ⟨haddr, hargs⟩ := hwf
  obtain ⟨b, addrtail, rfl⟩ : ∃ b t, addr = b :: t := by
    cases addr with
    | nil => simp [wfAddr] at haddr
    | cons b t => exact ⟨b, t, rfl⟩
  rw [wfAddr, Bool.and_eq_true, beq_iff_eq] at haddr
  obtain ⟨rfl, haddrs⟩ := haddr
  rw [wfString, Bool.and_eq_true, List.all_eq_true] at haddrs
  have haddrnul : ∀ c ∈ (0x2F : Nat) :: addrtail, c ≠ 0 := fun c hc => by
    have := haddrs.2 c hc
    simpa using this
  have hsplit : messageBytes ⟨(0x2F : Nat) :: addrtail, args⟩ ++ rest
      = encode_string ((0x2F : Nat) :: addrtail)
        ++ (((0x2C : Nat) :: argTypeBytesList args)
          ++ (List.replicate
                (pad ((encode_string ((0x2F : Nat) :: addrtail)).length + 1
                    + (argTypeBytesList args).length + 1)
                  - ((encode_string ((0x2F : Nat) :: addrtail)).length + 1
                    + (argTypeBytesList args).length)) 0
            ++ (argDataBytesList args ++ rest))) := by
    simp [messageBytes, List.append_assoc]
  have hA4 := pad_mod_four (((0x2F : Nat) :: addrtail).length + 1)
  have hoff1 : (off + pad (((0x2F : Nat) :: addrtail).length + 1)) % 4 = 0 := by omega
  have hne : (messageBytes ⟨(0x2F : Nat) :: addrtail, args⟩ ++ rest).isEmpty = false := by
    have h2 : ((0x2F : Nat) :: addrtail).length + 1
        ≤ pad (((0x2F : Nat) :: addrtail).length + 1) := le_pad _
    have hpos : 0 < (messageBytes ⟨(0x2F : Nat) :: addrtail, args⟩).length := by
      rw [messageBytes_length]
      dsimp only
      have := le_pad (pad (((0x2F : Nat) :: addrtail).length + 1) + 1
        + (argTypeBytesList args).length + 1)
      omega
    have hne' : messageBytes ⟨(0x2F : Nat) :: addrtail, args⟩ ++ rest ≠ [] := by
      refine List.ne_nil_of_length_pos ?_
      simp
      omega
    simp [List.isEmpty_iff, hne']
  rw [decode_packet]
  rw [if_neg (by simp [hne] :
    ¬(messageBytes ⟨(0x2F : Nat) :: addrtail, args⟩ ++ rest).isEmpty = true)]
  rw [hsplit, read_osc_string_encode_string haddrnul haddrs.1 hoff]
  dsimp only
  rw [if_pos rfl]
  have hkk : pad ((encode_string ((0x2F : Nat) :: addrtail)).length + 1
        + (argTypeBytesList args).length + 1)
      - ((encode_string ((0x2F : Nat) :: addrtail)).length + 1
        + (argTypeBytesList args).length)
      = 4 - ((off + pad (((0x2F : Nat) :: addrtail).length + 1))
          + (1 + (argTypeBytesList args).length)) % 4 := by
    have := pad_succ_sub ((encode_string ((0x2F : Nat) :: addrtail)).length + 1
      + (argTypeBytesList args).length)
    simp only [encode_string_length] at *
    omega
  rw [decode_message_enc ((0x2F : Nat) :: addrtail) args hargs
    (k := pad ((encode_string ((0x2F : Nat) :: addrtail)).length + 1
        + (argTypeBytesList args).length + 1)
      - ((encode_string ((0x2F : Nat) :: addrtail)).length + 1
        + (argTypeBytesList args).length))
    rest hoff1 hkk]
  congr 2
  simp only [Prod.mk.injEq]
  refine ⟨trivial, ?_⟩
  rw [messageBytes_length]
  dsimp only
  simp only [encode_string_length]
  have hw1 : pad (((0x2F : Nat) :: addrtail).length + 1) + 1 + (argTypeBytesList args).length
      ≤ pad (pad (((0x2F : Nat) :: addrtail).length + 1) + 1
        + (argTypeBytesList args).length + 1) := le_trans (Nat.le_succ _) (le_pad _)
  omega

/-! ### Bundle round trip

Bundle decoding keeps reading length-prefixed elements until one fails, so
trailing bytes that themselves parse as elements are absorbed into the bundle
(the behaviour the repository's own `test_multi_packet_message_bundle_first`
test documents).  `decode_packet_bundle` therefore leaves the continuation on
the trailing bytes symbolic: whatever `read_bundle_elements` makes of them is
appended to the bundle's own children. -/

theorem read_bundle_elements_nil (fuel off : Nat) :
    read_bundle_elements fuel [] off = ([], [], off) := by
  cases fuel <;> simp [read_bundle_elements, be_u32_p]

theorem bundleElemsBytes_cons_length (p : OscPacket) (cs : List OscPacket) :
    (bundleElemsBytes (p :: cs)).length
      = 4 + (packetBytes p).length + (bundleElemsBytes cs).length := by
  simp [bundleElemsBytes]
  omega

theorem packetBytes_bundle_length (t : OscTime) (cs : List OscPacket) :
    (packetBytes (.Bundle t cs)).length = 16 + (bundleElemsBytes cs).length := by
  have h8 : (pad 8 : Nat) = 8 := rfl
  simp [packetBytes, bundleTagBytes]
  omega

set_option maxHeartbeats 1600000 in
mutual

/-- Decoding an encoded well-formed bundle followed by arbitrary trailing
bytes: the bundle's own children are decoded, and the element loop then
continues into the trailing bytes, appending whatever elements it finds
there. -/
theorem decode_packet_bundle (t : OscTime) (cs : List OscPacket)
    (hwf : wfPacket (.Bundle t cs) = true) :
    ∀ (fuel : Nat) (rest : List Nat) (off : Nat), off % 4 = 0 →
      (bundleElemsBytes cs).length + rest.length ≤ fuel →
    decode_packet (fuel + 1) (packetBytes (.Bundle t cs) ++ rest) off
      = .ok (.Bundle t (cs ++ (read_bundle_elements (fuel - cs.length) rest
            (off + (packetBytes (.Bundle t cs)).length)).1),
          (read_bundle_elements (fuel - cs.length) rest
            (off + (packetBytes (.Bundle t cs)).length)).2.1,
          (read_bundle_elements (fuel - cs.length) rest
            (off + (packetBytes (.Bundle t cs)).length)).2.2) := by
  intro fuel rest off hoff hfuel
  simp only [wfPacket, Bool.and_eq_true, decide_eq_true_eq] at hwf
  obtain ⟨⟨hsec, hfrac⟩, hcs⟩ := hwf
  have hbtagnul : ∀ c ∈ bundleTagBytes, c ≠ 0 := by decide
  have hbtagvalid : utf8Valid bundleTagBytes = true := by decide
  have hsplit : packetBytes (.Bundle t cs) ++ rest
      = encode_string bundleTagBytes
        ++ (u32be t.seconds ++ (u32be t.fractional ++ (bundleElemsBytes cs ++ rest))) := by
    simp [packetBytes, List.append_assoc]
  have hne : (packetBytes (.Bundle t cs) ++ rest).isEmpty = false := by
    have : packetBytes (.Bundle t cs) ++ rest ≠ [] := by
      refine List.ne_nil_of_length_pos ?_
      rw [List.length_append, packetBytes_bundle_length]
      omega
    simp [List.isEmpty_iff, this]
  rw [decode_packet]
  rw [if_neg (by simp [hne] : ¬(packetBytes (.Bundle t cs) ++ rest).isEmpty = true)]
  rw [hsplit, read_osc_string_encode_string hbtagnul hbtagvalid hoff]
  dsimp only [bundleTagBytes]
  norm_num
  rw [read_time_tag_enc hsec hfrac]
  dsimp only
  rw [show (pad 8 : Nat) = 8 from rfl]
  have hoff2 : (off + 8 + 8) % 4 = 0 := by omega
  rw [read_bundle_elements_enc cs hcs fuel rest _ hoff2 hfuel]
  rw [packetBytes_bundle_length]
  have harith : off + 8 + 8 + (bundleElemsBytes cs).length
      = off + (16 + (bundleElemsBytes cs).length) := by omega
  rw [harith]

/-- The element loop over the encoder's element bytes followed by arbitrary
trailing bytes: the `cs` children are read one by one, then the loop continues
into the trailing bytes with the remaining fuel. -/
theorem read_bundle_elements_enc (cs : List OscPacket) (hcs : wfPacketList cs = true) :
    ∀ (fuel : Nat) (rest : List Nat) (off : Nat), off % 4 = 0 →
      (bundleElemsBytes cs).length + rest.length ≤ fuel →
    read_bundle_elements fuel (bundleElemsBytes cs ++ rest) off
      = (cs ++ (read_bundle_elements (fuel - cs.length) rest
            (off + (bundleElemsBytes cs).length)).1,
          (read_bundle_elements (fuel - cs.length) rest
            (off + (bundleElemsBytes cs).length)).2) := by
  intro fuel rest off hoff hfuel
  cases cs with
  | nil => simp [bundleElemsBytes]
  | cons p cs' =>
    simp only [wfPacketList, Bool.and_eq_true, decide_eq_true_eq] at hcs
    obtain ⟨⟨hp, hplen⟩, hcs'⟩ := hcs
    have hclen := bundleElemsBytes_cons_length p cs'
    obtain ⟨f, rfl⟩ : ∃ f, fuel = f + 1 := ⟨fuel - 1, by omega⟩
    have hsplit : bundleElemsBytes (p :: cs') ++ rest
        = u32be (packetBytes p).length
          ++ (packetBytes p ++ (bundleElemsBytes cs' ++ rest)) := by
      simp [bundleElemsBytes, List.append_assoc]
    rw [hsplit, read_bundle_elements]
    rw [be_u32_p_u32be hplen]
    dsimp only
    have htake : (packetBytes p ++ (bundleElemsBytes cs' ++ rest)).take
        (packetBytes p).length = packetBytes p := List.take_left _ _
    have hdrop : (packetBytes p ++ (bundleElemsBytes cs' ++ rest)).drop
        (packetBytes p).length = bundleElemsBytes cs' ++ rest := List.drop_left _ _
    rw [if_pos (by simp : (packetBytes p).length
      ≤ (packetBytes p ++ (bundleElemsBytes cs' ++ rest)).length)]
    rw [htake, hdrop]
    have hoff4 : (off + 4) % 4 = 0 := by omega
    obtain ⟨f', rfl⟩ : ∃ f', f = f' + 1 := ⟨f - 1, by omega⟩
    have hwindow : decode_packet (f' + 1) (packetBytes p) (off + 4)
        = .ok (p, [], off + 4 + (packetBytes p).length) := by
      cases p with
      | Message mp =>
        have := decode_packet_message mp hp f' [] (off + 4) hoff4
        simpa using this
      | Bundle t' cs'' =>
        have hfuel'' : (bundleElemsBytes cs'').length + ([] : List Nat).length ≤ f' := by
          have := packetBytes_bundle_length t' cs''
          simp only [List.length_nil] at *
          omega
        have := decode_packet_bundle t' cs'' hp f' [] (off + 4) hoff4 hfuel''
        rw [List.append_nil] at this
        rw [this, read_bundle_elements_nil]
        simp
    rw [hwindow]
    dsimp only
    have halign : (off + 4 + (packetBytes p).length) % 4 = 0 := by
      have := packetBytes_length_mod4 p
      omega
    have hfuel' : (bundleElemsBytes cs').length + rest.length ≤ f' + 1 := by omega
    rw [read_bundle_elements_enc cs' hcs' (f' + 1) rest _ halign hfuel']
    have e1 : f' + 1 + 1 - (p :: cs').length = f' + 1 - cs'.length := by
      simp only [List.length_cons]
      omega
    have e2 : off + (bundleElemsBytes (p :: cs')).length
        = off + 4 + (packetBytes p).length + (bundleElemsBytes cs').length := by omega
    rw [e1, e2]
    simp

end

/-! ### Top-level round-trip consequences -/

theorem length_le_bundleElemsBytes (cs : List OscPacket) :
    cs.length ≤ (bundleElemsBytes cs).length := by
  induction cs with
  | nil => simp [bundleElemsBytes]
  | cons p rest ih =>
    rw [bundleElemsBytes_cons_length]
    simp only [List.length_cons]
    omega

/-- Datagram round trip: decoding the encoding of a well-formed packet yields
the packet and an empty remainder. -/
theorem decode_udp_enc (p : OscPacket) (hwf : wfPacket p = true) :
    decode_udp (packetBytes p) = .ok ([], p) := by
  rw [decode_udp]
  cases p with
  | Message m =>
    have h := decode_packet_message m hwf (packetBytes (.Message m)).length [] 0 rfl
    rw [List.append_nil] at h
    simp only [packetBytes] at h ⊢
    rw [h]
  | Bundle t cs =>
    have hfuel : (bundleElemsBytes cs).length + ([] : List Nat).length
        ≤ (packetBytes (.Bundle t cs)).length := by
      rw [packetBytes_bundle_length]
      simp
    have h := decode_packet_bundle t cs hwf (packetBytes (.Bundle t cs)).length [] 0 rfl hfuel
    rw [List.append_nil] at h
    rw [h, read_bundle_elements_nil]
    simp

/-- `decode_tcp` on fewer than 4 bytes: the `be_u32` length-prefix read fails
with `Eof` (nom's complete parsers return `Err::Error`, not `Incomplete`), so
the function returns an error instead of "need more data". -/
theorem decode_tcp_short {msg : List Nat} (h : msg.length < 4) :
    decode_tcp msg = .error (.ReadError .Eof) := by
  match msg, h with
  | [], _ => rfl
  | [_], _ => rfl
  | [_, _], _ => rfl
  | [_, _, _], _ => rfl

/-- `decode_tcp` returns the buffer unchanged with `None` exactly when the
declared frame length exceeds the length of the whole buffer (the length
prefix itself included in the comparison). -/
theorem decode_tcp_insufficient (b0 b1 b2 b3 : Nat) (tl : List Nat)
    (h : (b0 :: b1 :: b2 :: b3 :: tl).length
      < ((b0 * 256 + b1) * 256 + b2) * 256 + b3) :
    decode_tcp (b0 :: b1 :: b2 :: b3 :: tl) = .ok (b0 :: b1 :: b2 :: b3 :: tl, none) := by
  rw [decode_tcp, be_u32_p]
  dsimp only
  rw [if_pos h]

/-- `decode_tcp` on a frame holding an encoded well-formed message: the message
is decoded and the bytes after its encoding are the remainder. -/
theorem decode_tcp_message_frame (m : OscMessage) (hwf : wfPacket (.Message m) = true)
    (hlen : (messageBytes m).length < 2 ^ 32) (rest : List Nat) :
    decode_tcp (u32be (messageBytes m).length ++ (messageBytes m ++ rest))
      = .ok (rest, some (.Message m)) := by
  rw [decode_tcp, be_u32_p_u32be hlen]
  dsimp only
  rw [if_neg (by simp; omega :
    ¬(u32be (messageBytes m).length ++ (messageBytes m ++ rest)).length
      < (messageBytes m).length)]
  obtain ⟨f, hf⟩ : ∃ f, (messageBytes m ++ rest).length + 1 = f + 1 :=
    ⟨(messageBytes m ++ rest).length, rfl⟩
  rw [hf, decode_packet_message m hwf f rest 4 rfl]

/-- `decode_tcp_vec` on a length-prefixed encoded bundle followed by a
length-prefixed encoded packet: the bundle's element loop runs off the end of
its own frame, reads the second frame's length prefix as an element length and
absorbs the second packet into the bundle, so a single bundle is returned and
the stream is fully consumed. -/
theorem decode_tcp_vec_absorbs (t : OscTime) (cs : List OscPacket) (q : OscPacket)
    (hwfb : wfPacket (.Bundle t cs) = true) (hwfq : wfPacket q = true)
    (hlb : (packetBytes (.Bundle t cs)).length < 2 ^ 32)
    (hlq : (packetBytes q).length < 2 ^ 32) :
    decode_tcp_vec
        ((u32be (packetBytes (.Bundle t cs)).length ++ packetBytes (.Bundle t cs))
          ++ (u32be (packetBytes q).length ++ packetBytes q))
      = .ok ([], [.Bundle t (cs ++ [q])]) := by
  have hq4 := packetBytes_length_mod4 q
  have hb4 := packetBytes_length_mod4 (.Bundle t cs)
  have hcsle := length_le_bundleElemsBytes cs
  have hblen := packetBytes_bundle_length t cs
  -- the tail after the first frame's prefix
  have htcp : decode_tcp
      ((u32be (packetBytes (.Bundle t cs)).length ++ packetBytes (.Bundle t cs))
        ++ (u32be (packetBytes q).length ++ packetBytes q))
      = .ok ([], some (.Bundle t (cs ++ [q]))) := by
    rw [List.append_assoc, decode_tcp, be_u32_p_u32be hlb]
    dsimp only
    rw [if_neg (by simp; omega :
      ¬(u32be (packetBytes (.Bundle t cs)).length
          ++ (packetBytes (.Bundle t cs) ++ (u32be (packetBytes q).length
            ++ packetBytes q))).length
        < (packetBytes (.Bundle t cs)).length)]
    simp only [Nat.zero_add]
    have hfuel : (bundleElemsBytes cs).length
        + (u32be (packetBytes q).length ++ packetBytes q).length
        ≤ (packetBytes (.Bundle t cs) ++ (u32be (packetBytes q).length
          ++ packetBytes q)).length := by
      simp
      omega
    rw [decode_packet_bundle t cs hwfb
      (packetBytes (.Bundle t cs) ++ (u32be (packetBytes q).length ++ packetBytes q)).length
      (u32be (packetBytes q).length ++ packetBytes q) 4 rfl hfuel]
    -- the absorbed element: the second frame parses as a single bundle element
    have helems : u32be (packetBytes q).length ++ packetBytes q
        = bundleElemsBytes [q] ++ [] := by
      simp [bundleElemsBytes]
    have hwfl : wfPacketList [q] = true := by
      simp [wfPacketList, hwfq]
      exact hlq
    have hoffq : (4 + (packetBytes (.Bundle t cs)).length) % 4 = 0 := by omega
    have hfuelq : (bundleElemsBytes [q]).length + ([] : List Nat).length
        ≤ (packetBytes (.Bundle t cs) ++ (u32be (packetBytes q).length
          ++ packetBytes q)).length - cs.length := by
      rw [bundleElemsBytes_cons_length]
      simp only [bundleElemsBytes, List.length_nil, List.length_append, u32be_length]
      omega
    rw [helems] at hfuelq ⊢
    rw [read_bundle_elements_enc [q] hwfl _ [] _ hoffq hfuelq]
    rw [read_bundle_elements_nil]
    simp
  -- one loop iteration: packet pushed, remainder empty, loop breaks
  rw [decode_tcp_vec, decode_tcp_vec_go]
  rw [htcp]
  simp

/-! ## `OscTime` ↔ `(u32, u32)` conversions (src/src/types.rs:105–119) -/

/-- `impl From<(u32, u32)> for OscTime` (src/src/types.rs:105): destructure the
pair into the two fields; no arithmetic. -/
def OscTime.from_pair (time : Nat × Nat) : OscTime :=
  ⟨time.1, time.2⟩

/-- `impl From<OscTime> for (u32, u32)` (src/src/types.rs:115): read the two
fields back out; no arithmetic. -/
def OscTime.to_pair (time : OscTime) : Nat × Nat :=
  (time.seconds, time.fractional)

/-! ## The claims -/

/-- **C1, counterexample.**  The round-trip claim fails for the constructible
packet `Message { addr: "", args: [] }`: `encode` happily produces bytes (it
performs no address validation), but `decode_udp` reads an empty address
string, falls through the `'/'`/`'#'` dispatch, and fails — so
`decode_datagram(encode(p))` is an error, not `(empty remainder, p)`. -/
theorem c1_roundtrip_counterexample :
    encode (.Message ⟨[], []⟩) = .ok [0, 0, 0, 0, 0x2C, 0, 0, 0]
      ∧ decode_udp [0, 0, 0, 0, 0x2C, 0, 0, 0]
        = .error (.BadPacket "Invalid message address or bundle tag") := by
  constructor
  · rw [encode_eq]
    rfl
  · rfl

/-- **C1, amended.**  For every wire-well-formed packet (addresses start with
`'/'` and are NUL-free valid UTF-8, string arguments are NUL-free valid UTF-8,
blob lengths are not multiples of 4 and fit in a `u32`, chars are Unicode
scalar values, numeric fields fit their declared widths, bundle children
encode to fewer than `2^32` bytes), `encode` succeeds and `decode_udp` on its
output returns the packet with an empty remainder. -/
theorem c1_roundtrip (p : OscPacket) (hwf : wfPacket p = true) :
    ∃ bytes, encode p = .ok bytes ∧ decode_udp bytes = .ok ([], p) :=
  ⟨packetBytes p, encode_eq p, decode_udp_enc p hwf⟩

theorem c1_roundtrip_witness :
    ∃ bytes,
      encode (.Message ⟨[0x2F, 0x61], [.Int 7, .String [0x68, 0x69], .Blob [1, 2, 3],
        .Array [.Bool true, .Float 1], .Char 0x24]⟩) = .ok bytes
      ∧ decode_udp bytes
        = .ok ([], .Message ⟨[0x2F, 0x61], [.Int 7, .String [0x68, 0x69], .Blob [1, 2, 3],
            .Array [.Bool true, .Float 1], .Char 0x24]⟩) :=
  c1_roundtrip _ (by decide)

/-- **C3.**  Every encoded output has a length that is a multiple of 4. -/
theorem c3_encoded_length_mod4 (p : OscPacket) (bytes : List Nat)
    (h : encode p = .ok bytes) : bytes.length % 4 = 0 := by
  rw [encode_eq] at h
  injection h with h
  rw [← h]
  exact packetBytes_length_mod4 p

theorem c3_encoded_length_mod4_witness :
    (packetBytes (.Bundle ⟨4, 2⟩ [.Message ⟨[0x2F, 0x61], []⟩])).length % 4 = 0 :=
  c3_encoded_length_mod4 (.Bundle ⟨4, 2⟩ [.Message ⟨[0x2F, 0x61], []⟩]) _ (encode_eq _)

/-- **C7.**  Encoding into the growable in-memory `Vec<u8>` output cannot fail:
`encode_into` always returns `Ok` (its error type is `Infallible`), and
`encode` always returns `Ok` of the encoded bytes. -/
theorem c7_encode_infallible :
    (∀ (p : OscPacket) (out : List Nat), ∃ r, encode_into p out = .ok r)
      ∧ ∀ p : OscPacket, ∃ bytes, encode p = .ok bytes :=
  ⟨fun p out => ⟨(out ++ packetBytes p, (packetBytes p).length), encode_into_eq p out⟩,
   fun p => ⟨packetBytes p, encode_eq p⟩⟩

/-- **C9.**  The `OscTime` ↔ `(u32, u32)` conversions are total (plain Lean
functions) and mutually inverse: both round trips are the identity. -/
theorem c9_time_pair_conversions :
    (∀ t : OscTime, OscTime.from_pair (OscTime.to_pair t) = t)
      ∧ ∀ p : Nat × Nat, OscTime.to_pair (OscTime.from_pair p) = p :=
  ⟨fun _ => rfl, fun _ => rfl⟩

/-- **C5.**  The failing input for the blob-padding claim: a message holding a
4-byte blob.  The encoder writes no padding after the payload (the length is
already a multiple of 4), but the decoder's `pad_to_32_bit_boundary` computes
`4 - offset % 4 = 4` at a 4-aligned position and consumes four further bytes,
so decoding the encoder's own 16-byte output fails with an `Eof` read error
instead of returning the message. -/
theorem c5_blob_padding_bug :
    encode (.Message ⟨[0x2F, 0x62], [.Blob [1, 2, 3, 4]]⟩)
        = .ok [0x2F, 0x62, 0, 0, 0x2C, 0x62, 0, 0, 0, 0, 0, 4, 1, 2, 3, 4]
      ∧ decode_udp [0x2F, 0x62, 0, 0, 0x2C, 0x62, 0, 0, 0, 0, 0, 4, 1, 2, 3, 4]
        = .error (.ReadError .Eof) := by
  constructor
  · rw [encode_eq]
    rfl
  · rfl

/-- **C6, counterexample.**  Encoding a message whose address is the empty
string does not fail: `encode_message` performs no address validation, so
`encode` returns `Ok` with the padded empty string followed by the padded
`","` type-tag string. -/
theorem c6_empty_addr_counterexample :
    encode (.Message ⟨[], []⟩) = .ok [0, 0, 0, 0, 0x2C, 0, 0, 0] := by
  rw [encode_eq]
  rfl

/-- **C6, amended.**  The encoder performs no address validation: a message
with an empty address encodes successfully (for any argument list), while the
decoder accepts whatever well-formed address string arrives verbatim — the
decoded message carries exactly the address bytes from the wire. -/
theorem c6_no_encode_validation :
    (∀ args : List OscType, ∃ bytes, encode (.Message ⟨[], args⟩) = .ok bytes)
      ∧ ∀ m : OscMessage, wfPacket (.Message m) = true →
          ∃ bytes, encode (.Message m) = .ok bytes ∧ decode_udp bytes = .ok ([], .Message m) :=
  ⟨fun args => ⟨packetBytes (.Message ⟨[], args⟩), encode_eq _⟩,
   fun m hwf => ⟨packetBytes (.Message m), encode_eq _, decode_udp_enc _ hwf⟩⟩

theorem c6_no_encode_validation_witness :
    (∃ bytes, encode (.Message ⟨[], [.Int 3]⟩) = .ok bytes)
      ∧ ∃ bytes, encode (.Message ⟨[0x2F, 0x78], []⟩) = .ok bytes
          ∧ decode_udp bytes = .ok ([], .Message ⟨[0x2F, 0x78], []⟩) :=
  ⟨c6_no_encode_validation.1 [.Int 3],
   c6_no_encode_validation.2 ⟨[0x2F, 0x78], []⟩ (by decide)⟩

/-- **C2, counterexample.**  On the empty input — "not enough bytes present at
all" — `decode_tcp` does not return `(input, None)`: nom's *complete* `be_u32`
fails with an `Eof` error, which `decode_tcp` propagates as `Err`. -/
theorem c2_insufficient_counterexample :
    decode_tcp ([] : List Nat) = .error (.ReadError .Eof) := rfl

/-- **C2, amended.**  (i) When the input holds fewer than 4 bytes the length
prefix cannot be read and `decode_tcp` returns an error (not `None`).
(ii) When the input holds at least 4 bytes and the declared frame length
exceeds the length of the *whole* input (the 4 prefix bytes included in the
comparison), the input is returned unchanged paired with `None`.  (iii) When
the input is a length-prefixed encoding of a well-formed *message* followed by
any remainder, the decoded message and that remainder are returned.  (For
bundle frames the remainder is not preserved: see the trailing-packet
absorption behaviour.) -/
theorem c2_stream_frame :
    (∀ msg : List Nat, msg.length < 4 → decode_tcp msg = .error (.ReadError .Eof))
      ∧ (∀ b0 b1 b2 b3 : Nat, ∀ tl : List Nat,
          (b0 :: b1 :: b2 :: b3 :: tl).length < ((b0 * 256 + b1) * 256 + b2) * 256 + b3 →
          decode_tcp (b0 :: b1 :: b2 :: b3 :: tl) = .ok (b0 :: b1 :: b2 :: b3 :: tl, none))
      ∧ ∀ (m : OscMessage) (rest : List Nat), wfPacket (.Message m) = true →
          (messageBytes m).length < 2 ^ 32 →
          decode_tcp (u32be (messageBytes m).length ++ (messageBytes m ++ rest))
            = .ok (rest, some (.Message m)) :=
  ⟨fun _ h => decode_tcp_short h,
   fun b0 b1 b2 b3 tl h => decode_tcp_insufficient b0 b1 b2 b3 tl h,
   fun m rest hwf hlen => decode_tcp_message_frame m hwf hlen rest⟩

theorem c2_stream_frame_witness :
    decode_tcp [0, 0, 0] = .error (.ReadError .Eof)
      ∧ decode_tcp [0, 0, 0, 16, 0, 0] = .ok ([0, 0, 0, 16, 0, 0], none)
      ∧ decode_tcp [0, 0, 0, 8, 0x2F, 0x61, 0, 0, 0x2C, 0, 0, 0, 9]
        = .ok ([9], some (.Message ⟨[0x2F, 0x61], []⟩)) := by
  refine ⟨c2_stream_frame.1 [0, 0, 0] (by decide),
    c2_stream_frame.2.1 0 0 0 16 [0, 0] (by decide), ?_⟩
  have h := c2_stream_frame.2.2 ⟨[0x2F, 0x61], []⟩ [9] (by decide) (by decide)
  simpa using h

/-- **C4.**  Draining a stream that holds a length-prefixed encoded bundle
immediately followed by a length-prefixed encoded packet yields a single
bundle: the bundle's element loop reads past its own frame, takes the second
frame's length prefix for an element length, and appends the trailing packet
after the bundle's own children; the whole stream is consumed. -/
theorem c4_trailing_packet_absorbed (t : OscTime) (cs : List OscPacket) (q : OscPacket)
    (hwfb : wfPacket (.Bundle t cs) = true) (hwfq : wfPacket q = true)
    (hlb : (packetBytes (.Bundle t cs)).length < 2 ^ 32)
    (hlq : (packetBytes q).length < 2 ^ 32) :
    decode_tcp_vec
        ((u32be (packetBytes (.Bundle t cs)).length ++ packetBytes (.Bundle t cs))
          ++ (u32be (packetBytes q).length ++ packetBytes q))
      = .ok ([], [.Bundle t (cs ++ [q])]) :=
  decode_tcp_vec_absorbs t cs q hwfb hwfq hlb hlq

theorem c4_trailing_packet_absorbed_witness :
    decode_tcp_vec
        ((u32be (packetBytes (.Bundle ⟨4, 2⟩ [])).length ++ packetBytes (.Bundle ⟨4, 2⟩ []))
          ++ (u32be (packetBytes (.Message ⟨[0x2F, 0x61], []⟩)).length
            ++ packetBytes (.Message ⟨[0x2F, 0x61], []⟩)))
      = .ok ([], [.Bundle ⟨4, 2⟩ [.Message ⟨[0x2F, 0x61], []⟩]]) := by
  have h := c4_trailing_packet_absorbed ⟨4, 2⟩ [] (.Message ⟨[0x2F, 0x61], []⟩)
    (by decide) (by decide) (by decide) (by decide)
  simpa using h

/-- A successful `read_osc_string` returns exactly the bytes before the first
NUL. -/
theorem read_osc_string_ok_val {buf : List Nat} {off : Nat} {s rest' : List Nat}
    {off' : Nat} (h : read_osc_string buf off = .ok (s, rest', off')) :
    s = buf.takeWhile (fun v => v != 0) := by
  rw [read_osc_string] at h
  split at h
  · split at h
    · simp only [Except.ok.injEq, Prod.mk.injEq] at h
      exact h.1.symm
    · exact absurd h (by simp)
  · exact absurd h (by simp)

/-- Any buffer whose leading packet string starts with a byte other than `'/'`
or `'#'` — or starts with `'#'` without the string being exactly `"#bundle"` —
makes `decode_udp` fail: either the string read itself fails (truncated
padding, invalid UTF-8) or the address dispatch rejects the string. -/
theorem decode_udp_bad_leading (buf : List Nat) (b : Nat)
    (hb : (buf.takeWhile (fun v => v != 0)).head? = some b)
    (h2F : b ≠ 0x2F)
    (h23 : b = 0x23 → buf.takeWhile (fun v => v != 0) ≠ bundleTagBytes) :
    ∃ e, decode_udp buf = .error e := by
  obtain ⟨tl, rfl⟩ : ∃ tl, buf = b :: tl := by
    cases buf with
    | nil => simp at hb
    | cons c tl =>
      rw [List.takeWhile_cons] at hb
      by_cases hc : (c != 0) = true
      · rw [if_pos hc] at hb
        simp only [List.head?_cons, Option.some.injEq] at hb
        exact ⟨tl, by rw [hb]⟩
      · rw [if_neg hc] at hb
        simp at hb
  have hbne : (b != 0) = true := by
    rw [List.takeWhile_cons] at hb
    by_cases hbz : (b != 0) = true
    · exact hbz
    · rw [if_neg hbz] at hb
      simp at hb
  rw [decode_udp, decode_packet]
  rw [if_neg (by simp : ¬(b :: tl).isEmpty = true)]
  rcases hrs : read_osc_string (b :: tl) 0 with e | ⟨addr, buf', off'⟩
  · exact ⟨e, rfl⟩
  · have haddr : addr = (b :: tl).takeWhile (fun v => v != 0) := read_osc_string_ok_val hrs
    rw [List.takeWhile_cons, if_pos hbne] at haddr
    dsimp only
    rw [haddr]
    dsimp only
    rw [if_neg (by omega : ¬b = 0x2F)]
    by_cases hb23 : b = 0x23
    · rw [if_pos hb23]
      rw [if_neg (by
        have := h23 hb23
        rw [List.takeWhile_cons, if_pos hbne] at this
        exact this)]
      exact ⟨_, rfl⟩
    · rw [if_neg hb23]
      exact ⟨_, rfl⟩

/-- **C8.**  Packet decoding never returns a packet for a buffer whose leading
string does not select the message or bundle form: the empty buffer fails with
the `"Empty packet."` format error, and any buffer whose leading packet string
starts with a byte that is neither `'/'` nor `'#'` — including a `'#'`-leading
string different from `"#bundle"` — fails with an error. -/
theorem c8_unrecognized_packet_rejected :
    decode_udp ([] : List Nat) = .error (.BadPacket "Empty packet.")
      ∧ ∀ (buf : List Nat) (b : Nat),
          (buf.takeWhile (fun v => v != 0)).head? = some b →
          b ≠ 0x2F →
          (b = 0x23 → buf.takeWhile (fun v => v != 0) ≠ bundleTagBytes) →
          ∃ e, decode_udp buf = .error e :=
  ⟨rfl, decode_udp_bad_leading⟩

theorem c8_unrecognized_packet_rejected_witness :
    ∃ e, decode_udp [0x41, 0x42, 0, 0] = .error e :=
  c8_unrecognized_packet_rejected.2 [0x41, 0x42, 0, 0] 0x41 (by rfl) (by decide) (by decide)

/-- **C10.**  `decode_message` (decoder.rs:103-116, with `read_osc_args`,
decoder.rs:165-200) never checks that the type-tag string begins with `','`:
the first tag character is dropped unconditionally (`chars().skip(1)`), so a
tag string whose first byte is any nonzero ASCII byte `h` — e.g. `'i'` instead
of `','` — followed by the encoder's tag bytes for `args` decodes without
error to exactly `args`, with `h` silently ignored.  And a tag string of byte
length 1 (below the `> 1` length guard) short-circuits to a message with zero
arguments, leaving all following bytes untouched. -/
theorem c10_first_tag_char_skipped :
    (∀ (addr : List Nat) (args : List OscType) (h k off1 : Nat) (rest' : List Nat),
        wfTypeList args = true → h ≠ 0 → h ≤ 0x7F → off1 % 4 = 0 →
        k = 4 - (off1 + (1 + (argTypeBytesList args).length)) % 4 →
        decode_message addr
            ((h :: argTypeBytesList args)
              ++ (List.replicate k 0 ++ (argDataBytesList args ++ rest'))) off1
          = .ok (.Message ⟨addr, args⟩, rest',
              off1 + (1 + (argTypeBytesList args).length) + k
                + (argDataBytesList args).length))
    ∧ (∀ (addr : List Nat) (h off1 : Nat) (rest' : List Nat),
        h ≠ 0 → h ≤ 0x7F → off1 % 4 = 0 →
        decode_message addr ([h] ++ (List.replicate 3 0 ++ rest')) off1
          = .ok (.Message ⟨addr, []⟩, rest', off1 + 1 + 3)) := by
  constructor
  · intro addr args h k off1 rest' hargs hh0 hh7 hoff1 hk
    exact decode_message_tags addr args hargs h hh0 hh7 rest' hoff1 hk
  · intro addr h off1 rest' hh0 hh7 hoff1
    exact @decode_message_tags addr [] rfl h hh0 hh7 3 off1 rest' hoff1
      (by show (3 : Nat) = 4 - (off1 + 1) % 4; omega)

theorem c10_first_tag_char_skipped_witness :
    decode_message [0x2F, 0x62] [0x69, 0x69, 0, 0, 0, 0, 0, 5] 4
      = .ok (.Message ⟨[0x2F, 0x62], [.Int 5]⟩, [], 12) := by
  have h1 := c10_first_tag_char_skipped.1 [0x2F, 0x62] [.Int 5] 0x69 2 4 []
    (by decide) (by decide) (by decide) (by decide) (by decide)
  exact h1

end Rosc
